import Mathlib

/-!
# go-instability: coupling counts and the instability ratio

A shallow embedding of `src/main/go-instability.go`.

* The Go syntax tree (`go/ast`) is an inductive type; `ast.Inspect` is a
  state-passing walk in which the closure's captured counter is the state.
* `float64` is a small IEEE-754 binary64 model: NaN, the two infinities and
  finite values, every arithmetic result rounded to nearest, ties to even.
* Go's `int` counters are `Int`; a counter that is incremented once per visited
  node cannot reach `2^63` on a tree that fits in memory, so no wrap-around is
  modelled for them.
-/

set_option linter.unusedVariables false

namespace GoInstability

/-! ## Exported names (`go/token`, `unicode`) -/

/-- The Latin-1 fast path of Go's `unicode.IsUpper`: the code points below
`0x100` whose property is "upper case letter" are `A`-`Z`, `U+00C0`-`U+00D6`
and `U+00D8`-`U+00DE`. -/
def latin1IsUpper (r : Char) : Bool :=
  (0x41 ≤ r.toNat && r.toNat ≤ 0x5A) || (0xC0 ≤ r.toNat && r.toNat ≤ 0xD6) ||
    (0xD8 ≤ r.toNat && r.toNat ≤ 0xDE)

/-- Go's `unicode.IsUpper`. Code points up to `MaxLatin1` are answered from the
built-in property table; the others are looked up in the range table
`unicode.Upper`, which is not part of this repository and is the parameter
`upper` (membership in that table). -/
def IsUpper (upper : Char → Bool) (r : Char) : Bool :=
  if r.toNat ≤ 0xFF then latin1IsUpper r else upper r

/-- The replacement character `utf8.RuneError`, `U+FFFD`. -/
def RuneError : Char := Char.ofNat 0xFFFD

/-- First result of Go's `utf8.DecodeRuneInString`: the first code point of the
string, and `RuneError` for the empty string. A Lean `String` is a sequence of
code points, so ill-formed UTF-8 does not arise. -/
def DecodeRuneInString (s : String) : Char :=
  match s.data with
  | [] => RuneError
  | c :: _ => c

/-- Go's `token.IsExported`, which `(*ast.Ident).IsExported` applies to the
identifier's `Name`. -/
def IsExported (upper : Char → Bool) (name : String) : Bool :=
  IsUpper upper (DecodeRuneInString name)

/-! ## Syntax trees (`go/ast`) -/

/-- Nodes below the declaration level. Only the shapes the program looks at
have their own constructor; every other kind of `go/ast` node is `other`, with
its children in the order `ast.Walk` visits them. `sel` and `name` stand for
the `*ast.Ident` child with that `Name`. -/
inductive Node where
  | ident (name : String)
  | selectorExpr (x : Node) (sel : String)
  | callExpr (fn : Node) (args : List Node)
  | typeSpec (name : String) (type : Node)
  | structType (fields : Node)
  | other (children : List Node)

/-- Top-level declarations, the elements of `ast.File.Decls`. A `*ast.FuncDecl`
occurs nowhere else in a Go syntax tree (a function literal is an
`*ast.FuncLit`, a declaration statement holds a `*ast.GenDecl`). -/
inductive Decl where
  | funcDecl (recv : Option Node) (name : String) (type : Node) (body : Option Node)
  | genDecl (specs : List Node)
  | badDecl

/-- The fields of `ast.File` that `ast.Walk` visits when the file was parsed
without comments (`parser.ParseFile(fset, path, nil, 0)`). -/
structure File where
  name : String
  decls : List Decl

/-- The dynamic type `ast.Node` of the value handed to an `ast.Inspect`
callback. -/
inductive AstNode where
  | file (f : File)
  | decl (d : Decl)
  | node (n : Node)

/-- An `ast.Inspect` callback `func(ast.Node) bool` that updates captured
variables of type `σ`: it receives the current state and the node (`none` for
the closing `nil` call) and returns the new state and its boolean result. -/
abbrev Visitor (σ : Type) := σ → Option AstNode → σ × Bool

/-- `ast.Walk` on a node without children: call the visitor, and if it returned
true call it again with `nil`. -/
def walkLeaf {σ : Type} (f : Visitor σ) (s : σ) (n : AstNode) : σ :=
  match f s (some n) with
  | (s1, true) => (f s1 none).1
  | (s1, false) => s1

mutual
/-- `ast.Walk` with the visitor of `ast.Inspect`: visit the node; if the
callback returned true walk the children in order and finish with a `nil`
call. -/
def walkNode {σ : Type} (f : Visitor σ) (s : σ) : Node → σ
  | .ident name => walkLeaf f s (.node (.ident name))
  | .selectorExpr x sel =>
    match f s (some (.node (.selectorExpr x sel))) with
    | (s1, true) => (f (walkLeaf f (walkNode f s1 x) (.node (.ident sel))) none).1
    | (s1, false) => s1
  | .callExpr fn args =>
    match f s (some (.node (.callExpr fn args))) with
    | (s1, true) => (f (walkList f (walkNode f s1 fn) args) none).1
    | (s1, false) => s1
  | .typeSpec name type =>
    match f s (some (.node (.typeSpec name type))) with
    | (s1, true) => (f (walkNode f (walkLeaf f s1 (.node (.ident name))) type) none).1
    | (s1, false) => s1
  | .structType fields =>
    match f s (some (.node (.structType fields))) with
    | (s1, true) => (f (walkNode f s1 fields) none).1
    | (s1, false) => s1
  | .other children =>
    match f s (some (.node (.other children))) with
    | (s1, true) => (f (walkList f s1 children) none).1
    | (s1, false) => s1
/-- Walk a list of nodes from left to right. -/
def walkList {σ : Type} (f : Visitor σ) (s : σ) : List Node → σ
  | [] => s
  | n :: rest => walkList f (walkNode f s n) rest
end

/-- Walk an optional child: `if n.X != nil { Walk(v, n.X) }`. -/
def walkOpt {σ : Type} (f : Visitor σ) (s : σ) : Option Node → σ
  | none => s
  | some n => walkNode f s n

/-- `ast.Walk` on a declaration. A `FuncDecl` has the children `Recv`, `Name`,
`Type`, `Body`; a `GenDecl` its `Specs`. -/
def walkDecl {σ : Type} (f : Visitor σ) (s : σ) : Decl → σ
  | .funcDecl recv name type body =>
    match f s (some (.decl (.funcDecl recv name type body))) with
    | (s1, true) =>
      (f (walkOpt f (walkNode f (walkLeaf f (walkOpt f s1 recv) (.node (.ident name))) type)
        body) none).1
    | (s1, false) => s1
  | .genDecl specs =>
    match f s (some (.decl (.genDecl specs))) with
    | (s1, true) => (f (walkList f s1 specs) none).1
    | (s1, false) => s1
  | .badDecl => walkLeaf f s (.decl .badDecl)

/-- Walk a list of declarations from left to right. -/
def walkDecls {σ : Type} (f : Visitor σ) (s : σ) : List Decl → σ
  | [] => s
  | d :: rest => walkDecls f (walkDecl f s d) rest

/-- `ast.Inspect(node, f)` for `node` an `*ast.File`: the package name
identifier, then the declarations. The result is the state of the captured
variables when `Inspect` returns. -/
def Inspect {σ : Type} (f : Visitor σ) (s : σ) (node : File) : σ :=
  match f s (some (.file node)) with
  | (s1, true) => (f (walkDecls f (walkLeaf f s1 (.node (.ident node.name))) node.decls) none).1
  | (s1, false) => s1

/-! ## The counters -/

/-- Source `contains`: linear search for `e` in `s`. -/
def contains (s : List String) (e : String) : Bool :=
  match s with
  | [] => false
  | a :: rest => if a == e then true else contains rest e

/-- The closure passed to `ast.Inspect` in `functionCalls`; the state is the
captured counter `fCalls`. -/
def functionCallsVisit (upper : Char → Bool) (pkgsInclude : List String) : Visitor Int :=
  fun fCalls n =>
    match n with
    | some (.node (.callExpr (.selectorExpr x sel) _)) =>
      let x := match x with
        | .ident name => name
        | _ => ""
      if contains pkgsInclude x then
        if IsExported upper sel then (fCalls + 1, true) else (fCalls, true)
      else (fCalls, true)
    | _ => (fCalls, true)

/-- Source `functionCalls`. -/
def functionCalls (upper : Char → Bool) (path : String) (node : File)
    (pkgsInclude : List String) : Int :=
  Inspect (functionCallsVisit upper pkgsInclude) 0 node

/-- The closure passed to `ast.Inspect` in `exportedFuncs`; the state is the
captured counter `exported`. -/
def exportedFuncsVisit (upper : Char → Bool) : Visitor Int :=
  fun exported n =>
    match n with
    | some (.decl (.funcDecl _ name _ _)) =>
      if IsExported upper name then (exported + 1, true) else (exported, true)
    | _ => (exported, true)

/-- Source `exportedFuncs`. -/
def exportedFuncs (upper : Char → Bool) (path : String) (node : File) : Int :=
  Inspect (exportedFuncsVisit upper) 0 node

/-! ## The nodes of a tree -/

mutual
/-- Every node of the subtree rooted at a node: the node itself, then the
nodes of its children. -/
def Node.subnodes : Node → List Node
  | .ident name => [.ident name]
  | .selectorExpr x sel => .selectorExpr x sel :: (x.subnodes ++ [.ident sel])
  | .callExpr fn args => .callExpr fn args :: (fn.subnodes ++ subnodesList args)
  | .typeSpec name type => .typeSpec name type :: .ident name :: type.subnodes
  | .structType fields => .structType fields :: fields.subnodes
  | .other children => .other children :: subnodesList children
/-- Every node of the subtrees rooted at the nodes of a list. -/
def subnodesList : List Node → List Node
  | [] => []
  | n :: rest => n.subnodes ++ subnodesList rest
end

/-- Every node of an optional subtree. -/
def subnodesOpt : Option Node → List Node
  | none => []
  | some n => n.subnodes

/-- Every node strictly below a declaration. -/
def Decl.subnodes : Decl → List Node
  | .funcDecl recv name type body =>
    subnodesOpt recv ++ .ident name :: (type.subnodes ++ subnodesOpt body)
  | .genDecl specs => subnodesList specs
  | .badDecl => []

/-- Every node of a declaration list, the declarations themselves included. -/
def declNodes : List Decl → List AstNode
  | [] => []
  | d :: rest => .decl d :: (d.subnodes.map AstNode.node ++ declNodes rest)

/-- Every node of a file, at any depth, the file node included. -/
def File.nodes (f : File) : List AstNode :=
  .file f :: .node (.ident f.name) :: declNodes f.decls

/-- Every node of a file that is below the declaration level, at any depth:
the expressions, statements, types and specs. -/
def File.subnodes (f : File) : List Node :=
  .ident f.name :: (f.decls.map Decl.subnodes).flatten

/-- A visitor that adds `c n` to an integer counter at every node `n` and always
returns true. -/
def countVisit (c : AstNode → Int) : Visitor Int :=
  fun s n =>
    match n with
    | some a => (s + c a, true)
    | none => (s, true)

/-- What the closure of `functionCalls` adds to `fCalls` at a node. -/
def callContribution (upper : Char → Bool) (pkgsInclude : List String) (n : AstNode) : Int :=
  (functionCallsVisit upper pkgsInclude 0 (some n)).1

/-- What the closure of `exportedFuncs` adds to `exported` at a node. -/
def declContribution (upper : Char → Bool) (n : AstNode) : Int :=
  (exportedFuncsVisit upper 0 (some n)).1

/-- A qualified call to an exported member of an included package, in the
words of the specification: a call expression whose callee is a selector
`q.M`, with `q` a plain identifier that is an element of `included` and `M` an
exported name. -/
def isQualifiedExportedCall (upper : Char → Bool) (included : List String) : Node → Bool
  | .callExpr (.selectorExpr (.ident q) m) _ => decide (q ∈ included) && IsExported upper m
  | _ => false

/-- A function or method declaration with an exported name. -/
def isExportedFuncDecl (upper : Char → Bool) : Decl → Bool
  | .funcDecl _ name _ _ => IsExported upper name
  | _ => false

/-- A call expression. -/
def Node.isCall : Node → Bool
  | .callExpr _ _ => true
  | _ => false

/-! ## `float64` -/

/-- Round a rational to the nearest integer, a tie to the even one. -/
def roundHalfEven (r : ℚ) : ℤ :=
  if r - ⌊r⌋ < 1 / 2 then ⌊r⌋
  else if 1 / 2 < r - ⌊r⌋ then ⌊r⌋ + 1
  else if ⌊r⌋ % 2 = 0 then ⌊r⌋ else ⌊r⌋ + 1

/-- The binary exponent at which `q` is rounded: `⌊log₂ |q|⌋` for a normal
number, and the least normal exponent `-1022` in the subnormal range. -/
def binade (q : ℚ) : ℤ := max (Int.log 2 |q|) (-1022)

/-- Round to nearest, ties to even, at binary64 precision: the significand is
an integer of magnitude at most `2^53` in units of `2^(binade q - 52)`. The
exponent is not bounded above here; `F64.round` does that. -/
def roundQ (q : ℚ) : ℚ :=
  (roundHalfEven (q * 2 ^ (52 - binade q)) : ℚ) * 2 ^ (binade q - 52)

/-- A Go `float64` value: NaN, an infinity with its sign, or a finite number,
given by the rational it denotes. The sign of a zero is not tracked (Go
compares the two zeros equal). -/
inductive F64 where
  | nan
  | inf (neg : Bool)
  | fin (q : ℚ)
deriving DecidableEq

/-- The binary64 value of an exact result `q`: `q` rounded to nearest, and an
infinity when the rounded magnitude reaches `2^1024`. -/
def F64.round (q : ℚ) : F64 :=
  if (2 : ℚ) ^ (1024 : ℕ) ≤ |roundQ q| then .inf (decide (q < 0)) else .fin (roundQ q)

/-- The conversion `float64(n)` of an `int`. -/
def F64.ofInt (n : ℤ) : F64 := F64.round n

/-- IEEE-754 addition, as Go's `+` on `float64`. -/
def F64.add : F64 → F64 → F64
  | .nan, _ => .nan
  | _, .nan => .nan
  | .inf s, .inf t => if s = t then .inf s else .nan
  | .inf s, .fin _ => .inf s
  | .fin _, .inf t => .inf t
  | .fin a, .fin b => F64.round (a + b)

/-- IEEE-754 division, as Go's `/` on `float64`: `0/0` and `Inf/Inf` are NaN,
a non-zero number divided by zero is an infinity. A zero divisor is taken as
`+0`, which is what the sum in `instability` yields when it is zero. -/
def F64.div : F64 → F64 → F64
  | .nan, _ => .nan
  | _, .nan => .nan
  | .inf _, .inf _ => .nan
  | .inf s, .fin b => .inf (xor s (decide (b < 0)))
  | .fin _, .inf _ => .fin 0
  | .fin a, .fin b =>
    if b = 0 then (if a = 0 then .nan else .inf (decide (a < 0))) else F64.round (a / b)

/-- Go's `math.IsNaN`. -/
def F64.isNaN : F64 → Bool
  | .nan => true
  | _ => false

/-- Source `instability`. The arguments are Go `int`s; no integer arithmetic
is done on them, they are converted to `float64` first. -/
def instability (Ce : ℤ) (Ca : ℤ) : F64 :=
  let i := F64.div (F64.ofInt Ce) (F64.add (F64.ofInt Ce) (F64.ofInt Ca))
  if F64.isNaN i then .fin 0 else i

/-- Go's `<=` on `float64`: false when an operand is NaN, `-Inf` below and
`+Inf` above every other value, and the order of the rationals on finite
values. -/
def F64.le : F64 → F64 → Bool
  | .nan, _ => false
  | _, .nan => false
  | .inf true, _ => true
  | _, .inf false => true
  | .inf false, _ => false
  | _, .inf true => false
  | .fin a, .fin b => decide (a ≤ b)

/-! ## The report loop of `main` -/

/-- Go's `strings.Replace(s, old, "", 1)` on code point sequences: delete the
leftmost occurrence of `old`, if there is one. -/
def removeFirst (old : List Char) : List Char → List Char
  | [] => []
  | c :: cs =>
    if old.isPrefixOf (c :: cs) then (c :: cs).drop old.length else c :: removeFirst old cs

/-- One printed line `"%s, %f\n"`, as the pair of values that is formatted. -/
structure Row where
  path : String
  inst : F64
deriving DecidableEq

/-- The body of the loop in `main` for one map entry. -/
def reportRow (upper : Char → Bool) (goPath : String) (pkgsInclude : List String)
    (path : String) (astFile : File) : Row :=
  let inward := exportedFuncs upper path astFile
  let outward := functionCalls upper path astFile pkgsInclude
  let inst := instability outward inward
  ⟨String.mk (removeFirst (goPath ++ "/").data path.data), inst⟩

/-- The rows printed when the loop in `main` meets the map entries in the
given order. -/
def reportRows (upper : Char → Bool) (goPath : String) (pkgsInclude : List String)
    (order : List (String × File)) : List Row :=
  order.map (fun e => reportRow upper goPath pkgsInclude e.1 e.2)

/-- The statement `for path, astFile := range asts` over the map built by
`findAndParseAllGoFiles`. `asts` lists the entries of the map in the order
in which the files were discovered and inserted. Go does not specify the
iteration order of a map, and it may differ from one `range` to the next: the
loop meets the entries in some order that enumerates each entry once. -/
def RangeOrder (asts order : List (String × File)) : Prop :=
  order.Perm asts

/-- One run of the report loop of `main` can print `rows`. -/
def MainLoop (upper : Char → Bool) (goPath : String) (pkgsInclude : List String)
    (asts : List (String × File)) (rows : List Row) : Prop :=
  ∃ order, RangeOrder asts order ∧ rows = reportRows upper goPath pkgsInclude order

/-! ## Sample inputs -/

/-- An excerpt of the range table `unicode.Upper`: the Greek capital letters
`U+0391`-`U+03A9` (`U+03A2` is unassigned). -/
def greekUpper (r : Char) : Bool :=
  0x391 ≤ r.toNat && r.toNat ≤ 0x3A9 && r.toNat != 0x3A2

/-- The type `func()`: a `FuncType` whose `Params` is an empty `FieldList`. -/
def funcTypeNoArgs : Node := .other [.other []]

/-- The call `a.b.Func()`: the qualifier `a.b` is itself a selector. -/
def chainedCall : Node :=
  .callExpr (.selectorExpr (.selectorExpr (.ident "a") "b") "Func") []

/-- The file
```go
package demo
func Run() { fmt.Println(a.b.Func()); helper() }
func helper() { pkg.lower() }
```
-/
def demoFile : File :=
  ⟨"demo",
    [.funcDecl none "Run" funcTypeNoArgs (some (.other [
        .other [.callExpr (.selectorExpr (.ident "fmt") "Println") [chainedCall]],
        .other [.callExpr (.ident "helper") []]])),
     .funcDecl none "helper" funcTypeNoArgs (some (.other [
        .other [.callExpr (.selectorExpr (.ident "pkg") "lower") []]]))]⟩

/-- The file
```go
package demo
func run() { a.b.Func() }
```
-/
def chainedFile : File :=
  ⟨"demo", [.funcDecl none "run" funcTypeNoArgs (some (.other [.other [chainedCall]]))]⟩

/-- The file
```go
package demo
func Run() { a.b.Func() }
```
-/
def chainedRunFile : File :=
  ⟨"demo", [.funcDecl none "Run" funcTypeNoArgs (some (.other [.other [chainedCall]]))]⟩

/-- The file
```go
package demo
func Run() {}
```
-/
def noCallFile : File :=
  ⟨"demo", [.funcDecl none "Run" funcTypeNoArgs (some (.other []))]⟩

/-- The declaration `type T struct{}` for a type name `T`. -/
def structDecl (name : String) : Decl :=
  .genDecl [.typeSpec name (.structType (.other []))]

/-- The map entries of a run that discovered `a.go`, then `b.go`. -/
def twoFiles : List (String × File) :=
  [("/go/src/p/a.go", demoFile), ("/go/src/p/b.go", noCallFile)]

/-! # Theorems -/

/-! ## The walk of a counting visitor -/

theorem countVisit_some (c : AstNode → Int) (s : Int) (a : AstNode) :
    countVisit c s (some a) = (s + c a, true) := rfl

theorem countVisit_none (c : AstNode → Int) (s : Int) :
    countVisit c s none = (s, true) := rfl

theorem walkLeaf_countVisit (c : AstNode → Int) (s : Int) (n : AstNode) :
    walkLeaf (countVisit c) s n = s + c n := by
  simp [walkLeaf, countVisit_some, countVisit_none]

mutual
theorem walkNode_countVisit (c : AstNode → Int) (s : Int) :
    (n : Node) → walkNode (countVisit c) s n = s + (n.subnodes.map (fun m => c (.node m))).sum
  | .ident name => by simp [walkNode, Node.subnodes, walkLeaf_countVisit]
  | .selectorExpr x sel => by
    simp only [walkNode, Node.subnodes, walkLeaf_countVisit, countVisit_some, countVisit_none,
      walkNode_countVisit c _ x, List.map_cons, List.sum_cons, List.map_append, List.sum_append,
      List.map_nil, List.sum_nil]
    ring
  | .callExpr fn args => by
    simp only [walkNode, Node.subnodes, countVisit_some, countVisit_none,
      walkNode_countVisit c _ fn, walkList_countVisit c _ args, List.map_cons, List.sum_cons,
      List.map_append, List.sum_append]
    ring
  | .typeSpec name type => by
    simp only [walkNode, Node.subnodes, walkLeaf_countVisit, countVisit_some, countVisit_none,
      walkNode_countVisit c _ type, List.map_cons, List.sum_cons]
    ring
  | .structType fields => by
    simp only [walkNode, Node.subnodes, countVisit_some, countVisit_none,
      walkNode_countVisit c _ fields, List.map_cons, List.sum_cons]
    ring
  | .other children => by
    simp only [walkNode, Node.subnodes, countVisit_some, countVisit_none,
      walkList_countVisit c _ children, List.map_cons, List.sum_cons]
    ring
theorem walkList_countVisit (c : AstNode → Int) (s : Int) :
    (l : List Node) →
      walkList (countVisit c) s l = s + ((subnodesList l).map (fun m => c (.node m))).sum
  | [] => by simp [walkList, subnodesList]
  | n :: rest => by
    simp only [walkList, subnodesList, walkNode_countVisit c s n, walkList_countVisit c _ rest,
      List.map_append, List.sum_append]
    ring
end


theorem walkOpt_countVisit (c : AstNode → Int) (s : Int) (o : Option Node) :
    walkOpt (countVisit c) s o = s + ((subnodesOpt o).map (fun m => c (.node m))).sum := by
  cases o with
  | none => simp [walkOpt, subnodesOpt]
  | some n => simp [walkOpt, subnodesOpt, walkNode_countVisit]

theorem walkDecl_countVisit (c : AstNode → Int) (s : Int) (d : Decl) :
    walkDecl (countVisit c) s d
      = s + c (.decl d) + (d.subnodes.map (fun m => c (.node m))).sum := by
  cases d with
  | funcDecl recv name type body =>
    simp only [walkDecl, Decl.subnodes, countVisit_some, countVisit_none, walkOpt_countVisit,
      walkLeaf_countVisit, walkNode_countVisit, List.map_append, List.sum_append, List.map_cons,
      List.sum_cons]
    ring
  | genDecl specs =>
    simp only [walkDecl, Decl.subnodes, countVisit_some, countVisit_none, walkList_countVisit]
  | badDecl => simp [walkDecl, Decl.subnodes, walkLeaf_countVisit]

theorem walkDecls_countVisit (c : AstNode → Int) (s : Int) (l : List Decl) :
    walkDecls (countVisit c) s l = s + ((declNodes l).map c).sum := by
  induction l generalizing s with
  | nil => simp [walkDecls, declNodes]
  | cons d rest ih =>
    simp only [walkDecls, declNodes, ih, walkDecl_countVisit, List.map_cons, List.sum_cons,
      List.map_append, List.sum_append, List.map_map, Function.comp_def]
    ring

/-- The walk of a counting visitor over a file adds up the visitor's
contribution at every node of the file. -/
theorem Inspect_countVisit (c : AstNode → Int) (s : Int) (f : File) :
    Inspect (countVisit c) s f = s + (f.nodes.map c).sum := by
  simp only [Inspect, File.nodes, countVisit_some, countVisit_none, walkLeaf_countVisit,
    walkDecls_countVisit, List.map_cons, List.sum_cons]
  ring

theorem declNodes_sum_node (c : AstNode → Int) (hd : ∀ d, c (.decl d) = 0) (l : List Decl) :
    ((declNodes l).map c).sum
      = (((l.map Decl.subnodes).flatten).map (fun m => c (.node m))).sum := by
  induction l with
  | nil => simp [declNodes]
  | cons d rest ih =>
    simp [declNodes, ih, hd, List.map_map, Function.comp_def]

theorem declNodes_sum_decl (c : AstNode → Int) (hn : ∀ n, c (.node n) = 0) (l : List Decl) :
    ((declNodes l).map c).sum = (l.map (fun d => c (.decl d))).sum := by
  induction l with
  | nil => simp [declNodes]
  | cons d rest ih =>
    simp [declNodes, ih, hn, List.map_map, Function.comp_def]

theorem sum_indicator {α : Type} (p : α → Bool) (l : List α) :
    (l.map (fun a => if p a = true then (1 : Int) else 0)).sum = (l.countP p : Int) := by
  induction l with
  | nil => simp
  | cons a rest ih =>
    by_cases h : p a = true
    · simp [List.countP_cons, h, ih]; ring
    · simp [List.countP_cons, h, ih]

/-! ## The two closures are counting visitors -/

theorem contains_iff (s : List String) (e : String) : contains s e = true ↔ e ∈ s := by
  induction s with
  | nil => simp [contains]
  | cons a rest ih =>
    by_cases h : a = e
    · simp [contains, h]
    · have h2 : ¬ e = a := fun h3 => h h3.symm
      simp [contains, h, h2, ih]

theorem functionCallsVisit_eq (upper : Char → Bool) (pkgsInclude : List String) :
    functionCallsVisit upper pkgsInclude = countVisit (callContribution upper pkgsInclude) := by
  funext s n
  unfold callContribution functionCallsVisit countVisit
  split <;> split <;> simp_all <;> split_ifs <;> simp

theorem exportedFuncsVisit_eq (upper : Char → Bool) :
    exportedFuncsVisit upper = countVisit (declContribution upper) := by
  funext s n
  unfold declContribution exportedFuncsVisit countVisit
  split <;> split <;> simp_all

theorem callContribution_file (upper : Char → Bool) (pkgs : List String) (f : File) :
    callContribution upper pkgs (.file f) = 0 := rfl

theorem callContribution_decl (upper : Char → Bool) (pkgs : List String) (d : Decl) :
    callContribution upper pkgs (.decl d) = 0 := rfl

theorem declContribution_file (upper : Char → Bool) (f : File) :
    declContribution upper (.file f) = 0 := rfl

theorem declContribution_node (upper : Char → Bool) (n : Node) :
    declContribution upper (.node n) = 0 := rfl

theorem declContribution_decl (upper : Char → Bool) (d : Decl) :
    declContribution upper (.decl d) = if isExportedFuncDecl upper d = true then 1 else 0 := by
  cases d <;> simp [declContribution, exportedFuncsVisit, isExportedFuncDecl]
  split_ifs <;> simp

/-- The count of `functionCalls` is the sum of the closure's contributions
over the nodes of the file below the declaration level. -/
theorem functionCalls_eq_sum (upper : Char → Bool) (path : String) (file : File)
    (pkgs : List String) :
    functionCalls upper path file pkgs
      = (file.subnodes.map (fun n => callContribution upper pkgs (.node n))).sum := by
  simp only [functionCalls, functionCallsVisit_eq, Inspect_countVisit, File.nodes, File.subnodes,
    List.map_cons, List.sum_cons, callContribution_file,
    declNodes_sum_node _ (callContribution_decl upper pkgs)]
  ring

/-- The count of `exportedFuncs` is the sum of the closure's contributions
over the declarations of the file. -/
theorem exportedFuncs_eq_sum (upper : Char → Bool) (path : String) (file : File) :
    exportedFuncs upper path file
      = (file.decls.map (fun d => declContribution upper (.decl d))).sum := by
  simp only [exportedFuncs, exportedFuncsVisit_eq, Inspect_countVisit, File.nodes,
    List.map_cons, List.sum_cons, declContribution_file, declContribution_node,
    declNodes_sum_decl _ (declContribution_node upper)]
  ring

/-- At a node that is not a call expression the closure of `functionCalls`
adds nothing. -/
theorem callContribution_not_call (upper : Char → Bool) (pkgs : List String) (n : Node)
    (h : n.isCall = false) : callContribution upper pkgs (.node n) = 0 := by
  cases n <;> first | rfl | simp [Node.isCall] at h

/-- With no empty string in the inclusion list, the closure of `functionCalls`
adds one exactly at the qualified exported calls. -/
theorem callContribution_eq (upper : Char → Bool) (pkgs : List String)
    (h : ∀ p ∈ pkgs, p ≠ "") (n : Node) :
    callContribution upper pkgs (.node n)
      = if isQualifiedExportedCall upper pkgs n = true then 1 else 0 := by
  have hempty : contains pkgs "" = false := by
    rw [Bool.eq_false_iff, Ne, contains_iff]
    exact fun hm => h "" hm rfl
  cases n with
  | callExpr fn args =>
    cases fn with
    | selectorExpr x sel =>
      cases x with
      | ident q =>
        by_cases hq : q ∈ pkgs <;> by_cases he : IsExported upper sel = true <;>
          simp [callContribution, functionCallsVisit, isQualifiedExportedCall, hq, he,
            contains_iff]
      | _ => simp [callContribution, functionCallsVisit, isQualifiedExportedCall, hempty]
    | _ => rfl
  | _ => rfl

/-- What the closure of `functionCalls` does to any counter value. -/
theorem functionCallsVisit_fst (upper : Char → Bool) (pkgs : List String) (fCalls : Int)
    (n : AstNode) :
    (functionCallsVisit upper pkgs fCalls (some n)).1
      = fCalls + callContribution upper pkgs n := by
  rw [functionCallsVisit_eq, countVisit_some]

/-! ## Rounding -/

theorem roundHalfEven_intCast (n : ℤ) : roundHalfEven (n : ℚ) = n := by
  simp [roundHalfEven]

theorem floor_le_roundHalfEven (r : ℚ) : ⌊r⌋ ≤ roundHalfEven r := by
  unfold roundHalfEven; split_ifs <;> omega

theorem roundHalfEven_le_floor_add_one (r : ℚ) : roundHalfEven r ≤ ⌊r⌋ + 1 := by
  unfold roundHalfEven; split_ifs <;> omega

theorem roundHalfEven_mono {r₁ r₂ : ℚ} (h : r₁ ≤ r₂) : roundHalfEven r₁ ≤ roundHalfEven r₂ := by
  have hf : ⌊r₁⌋ ≤ ⌊r₂⌋ := Int.floor_mono h
  rcases hf.lt_or_eq with hlt | heq
  · calc roundHalfEven r₁ ≤ ⌊r₁⌋ + 1 := roundHalfEven_le_floor_add_one r₁
      _ ≤ ⌊r₂⌋ := hlt
      _ ≤ roundHalfEven r₂ := floor_le_roundHalfEven r₂
  · unfold roundHalfEven
    rw [heq]
    have hd : r₁ - (⌊r₂⌋ : ℚ) ≤ r₂ - ⌊r₂⌋ := by linarith
    split_ifs <;> first | omega | (exfalso; linarith)

theorem roundHalfEven_neg (r : ℚ) : roundHalfEven (-r) = -roundHalfEven r := by
  by_cases hi : (⌊r⌋ : ℚ) = r
  · rw [← hi, ← Int.cast_neg, roundHalfEven_intCast, roundHalfEven_intCast]
  · have h1 : (⌊r⌋ : ℚ) < r := lt_of_le_of_ne (Int.floor_le r) hi
    have h2 : r < ⌊r⌋ + 1 := Int.lt_floor_add_one r
    have hfl : ⌊-r⌋ = -⌊r⌋ - 1 := by
      rw [Int.floor_eq_iff]; push_cast; constructor <;> linarith
    unfold roundHalfEven
    rw [hfl]; push_cast
    split_ifs <;> first | omega | (exfalso; linarith)


theorem two_zpow_pos (k : ℤ) : (0 : ℚ) < 2 ^ k := zpow_pos (by norm_num) k

theorem two_zpow_mono {a b : ℤ} (h : a ≤ b) : (2 : ℚ) ^ a ≤ 2 ^ b :=
  zpow_le_zpow_right₀ (by norm_num) h

theorem abs_lt_two_zpow_binade (q : ℚ) : |q| < 2 ^ (binade q + 1) := by
  have h := Int.lt_zpow_succ_log_self (b := 2) (by norm_num) |q|
  rw [Nat.cast_ofNat] at h
  exact lt_of_lt_of_le h (two_zpow_mono (by unfold binade; omega))

theorem two_zpow_binade_le {q : ℚ} (h : -1022 ≤ Int.log 2 |q|) (hq : q ≠ 0) :
    (2 : ℚ) ^ binade q ≤ |q| := by
  have h1 := Int.zpow_log_le_self (b := 2) (r := |q|) (by norm_num) (abs_pos.mpr hq)
  rw [Nat.cast_ofNat] at h1
  have : binade q = Int.log 2 |q| := by unfold binade; omega
  rw [this]; exact h1

theorem binade_neg (q : ℚ) : binade (-q) = binade q := by
  simp [binade]

theorem binade_mono {q₁ q₂ : ℚ} (h0 : q₁ ≠ 0) (h : |q₁| ≤ |q₂|) : binade q₁ ≤ binade q₂ := by
  have := Int.log_mono_right (b := 2) (abs_pos.mpr h0) h
  unfold binade; omega

theorem roundQ_zero : roundQ 0 = 0 := by
  simp [roundQ, roundHalfEven]

theorem roundQ_neg (q : ℚ) : roundQ (-q) = -roundQ q := by
  simp only [roundQ, binade_neg, neg_mul, roundHalfEven_neg, Int.cast_neg]

theorem roundQ_nonneg {q : ℚ} (h : 0 ≤ q) : 0 ≤ roundQ q := by
  unfold roundQ
  apply mul_nonneg _ (two_zpow_pos _).le
  have h1 : roundHalfEven ((0 : ℤ) : ℚ) ≤ roundHalfEven (q * 2 ^ (52 - binade q)) :=
    roundHalfEven_mono (by simpa using mul_nonneg h (two_zpow_pos _).le)
  rw [roundHalfEven_intCast] at h1
  exact_mod_cast h1

/-- `roundQ` is exact on `m * 2^e` with `|m| < 2^53` and `e` not below the
least binary64 exponent. -/
theorem roundQ_exact_lt (m e : ℤ) (hm : |m| < 2 ^ 53) (he : -1074 ≤ e) :
    roundQ ((m : ℚ) * 2 ^ e) = (m : ℚ) * 2 ^ e := by
  by_cases hm0 : m = 0
  · simp [hm0, roundQ_zero]
  have hq : (m : ℚ) * 2 ^ e ≠ 0 :=
    mul_ne_zero (by exact_mod_cast hm0) (two_zpow_pos e).ne'
  have habs : |(m : ℚ) * 2 ^ e| < 2 ^ (53 + e) := by
    rw [abs_mul, abs_of_pos (two_zpow_pos e), zpow_add₀ (by norm_num : (2 : ℚ) ≠ 0)]
    apply mul_lt_mul_of_pos_right _ (two_zpow_pos e)
    have : ((|m| : ℤ) : ℚ) < ((2 ^ 53 : ℤ) : ℚ) := by exact_mod_cast hm
    rw [Int.cast_abs] at this
    calc |(m : ℚ)| < ((2 ^ 53 : ℤ) : ℚ) := this
      _ = 2 ^ (53 : ℤ) := by norm_num
  have hlog : Int.log 2 |(m : ℚ) * 2 ^ e| < 53 + e := by
    rw [← Int.lt_zpow_iff_log_lt (by norm_num) (abs_pos.mpr hq), Nat.cast_ofNat]
    exact habs
  have hb : binade ((m : ℚ) * 2 ^ e) ≤ e + 52 := by unfold binade; omega
  obtain ⟨k, hk⟩ : ∃ k : ℕ, e + 52 - binade ((m : ℚ) * 2 ^ e) = k :=
    ⟨(e + 52 - binade ((m : ℚ) * 2 ^ e)).toNat, by omega⟩
  have hscaled : (m : ℚ) * 2 ^ e * 2 ^ (52 - binade ((m : ℚ) * 2 ^ e))
      = ((m * 2 ^ k : ℤ) : ℚ) := by
    rw [mul_assoc, ← zpow_add₀ (by norm_num : (2 : ℚ) ≠ 0)]
    have : e + (52 - binade ((m : ℚ) * 2 ^ e)) = k := by omega
    rw [this]; push_cast; rw [zpow_natCast]
  unfold roundQ
  rw [hscaled, roundHalfEven_intCast, ← hscaled, mul_assoc, mul_assoc,
    ← zpow_add₀ (by norm_num : (2 : ℚ) ≠ 0), ← zpow_add₀ (by norm_num : (2 : ℚ) ≠ 0)]
  congr 2
  omega

theorem roundQ_exact (m e : ℤ) (hm : |m| ≤ 2 ^ 53) (he : -1074 ≤ e) :
    roundQ ((m : ℚ) * 2 ^ e) = (m : ℚ) * 2 ^ e := by
  rcases hm.lt_or_eq with hlt | heq
  · exact roundQ_exact_lt m e hlt he
  · have hcases : m = 2 ^ 53 ∨ m = -2 ^ 53 := by
      rcases abs_cases m with ⟨h1, _⟩ | ⟨h1, _⟩ <;> omega
    have key : ∀ s : ℤ, |s| < 2 ^ 53 → ((s * 2 ^ 53 : ℤ) : ℚ) * 2 ^ e = (s : ℚ) * 2 ^ (e + 53) := by
      intro s _
      rw [zpow_add₀ (by norm_num : (2 : ℚ) ≠ 0)]; push_cast
      rw [show ((53 : ℤ)) = ((53 : ℕ) : ℤ) by rfl, zpow_natCast]; ring
    rcases hcases with h | h
    · have := key 1 (by norm_num)
      rw [h, show ((2 ^ 53 : ℤ) : ℚ) = ((1 * 2 ^ 53 : ℤ) : ℚ) by norm_num, this]
      exact roundQ_exact_lt 1 (e + 53) (by norm_num) (by omega)
    · have := key (-1) (by norm_num)
      rw [h, show ((-2 ^ 53 : ℤ) : ℚ) = ((-1 * 2 ^ 53 : ℤ) : ℚ) by norm_num, this]
      exact roundQ_exact_lt (-1) (e + 53) (by norm_num) (by omega)

theorem roundQ_intCast (n : ℤ) (hn : |n| ≤ 2 ^ 53) : roundQ (n : ℚ) = n := by
  simpa using roundQ_exact n 0 hn (by norm_num)

theorem roundQ_two_zpow (k : ℤ) (hk : -1074 ≤ k) : roundQ (2 ^ k) = 2 ^ k := by
  simpa using roundQ_exact 1 k (by norm_num) hk

theorem binade_ge (q : ℚ) : -1022 ≤ binade q := by
  unfold binade; omega

theorem abs_scaled_lt (q : ℚ) : |q * 2 ^ (52 - binade q)| < 2 ^ (53 : ℤ) := by
  rw [abs_mul, abs_of_pos (two_zpow_pos _)]
  calc |q| * 2 ^ (52 - binade q) < 2 ^ (binade q + 1) * 2 ^ (52 - binade q) :=
        mul_lt_mul_of_pos_right (abs_lt_two_zpow_binade q) (two_zpow_pos _)
    _ = 2 ^ (53 : ℤ) := by
        rw [← zpow_add₀ (by norm_num : (2 : ℚ) ≠ 0)]; congr 1; omega

theorem roundHalfEven_scaled_le (q : ℚ) : roundHalfEven (q * 2 ^ (52 - binade q)) ≤ 2 ^ 53 := by
  have h := (abs_lt.mp (abs_scaled_lt q)).2
  have h1 : roundHalfEven (q * 2 ^ (52 - binade q)) ≤ roundHalfEven ((2 ^ 53 : ℤ) : ℚ) :=
    roundHalfEven_mono (by
      calc q * 2 ^ (52 - binade q) ≤ 2 ^ (53 : ℤ) := h.le
        _ = ((2 ^ 53 : ℤ) : ℚ) := by norm_num)
  rwa [roundHalfEven_intCast] at h1

theorem neg_le_roundHalfEven_scaled (q : ℚ) :
    -2 ^ 53 ≤ roundHalfEven (q * 2 ^ (52 - binade q)) := by
  have h := (abs_lt.mp (abs_scaled_lt q)).1
  have h1 : roundHalfEven ((-2 ^ 53 : ℤ) : ℚ) ≤ roundHalfEven (q * 2 ^ (52 - binade q)) :=
    roundHalfEven_mono (by
      calc (((-2 ^ 53 : ℤ)) : ℚ) = -2 ^ (53 : ℤ) := by norm_num
        _ ≤ q * 2 ^ (52 - binade q) := h.le)
  rwa [roundHalfEven_intCast] at h1

/-- A rounded value is representable, so rounding it again changes nothing. -/
theorem roundQ_idem (q : ℚ) : roundQ (roundQ q) = roundQ q := by
  have h1 := roundHalfEven_scaled_le q
  have h2 := neg_le_roundHalfEven_scaled q
  have h3 := binade_ge q
  exact roundQ_exact _ (binade q - 52) (abs_le.mpr ⟨h2, h1⟩) (by omega)

theorem roundQ_le_two_zpow (q : ℚ) : roundQ q ≤ 2 ^ (binade q + 1) := by
  unfold roundQ
  have h1 : ((roundHalfEven (q * 2 ^ (52 - binade q)) : ℤ) : ℚ) ≤ 2 ^ (53 : ℤ) := by
    have := roundHalfEven_scaled_le q
    calc ((roundHalfEven (q * 2 ^ (52 - binade q)) : ℤ) : ℚ) ≤ ((2 ^ 53 : ℤ) : ℚ) := by
          exact_mod_cast this
      _ = 2 ^ (53 : ℤ) := by norm_num
  calc ((roundHalfEven (q * 2 ^ (52 - binade q)) : ℤ) : ℚ) * 2 ^ (binade q - 52)
      ≤ 2 ^ (53 : ℤ) * 2 ^ (binade q - 52) := mul_le_mul_of_nonneg_right h1 (two_zpow_pos _).le
    _ = 2 ^ (binade q + 1) := by
        rw [← zpow_add₀ (by norm_num : (2 : ℚ) ≠ 0)]; congr 1; omega

theorem two_zpow_le_roundQ {q : ℚ} (hq : 0 < q) (h : -1022 < binade q) :
    2 ^ binade q ≤ roundQ q := by
  have hlog : -1022 ≤ Int.log 2 |q| := by unfold binade at h; omega
  have h1 := two_zpow_binade_le hlog hq.ne'
  rw [abs_of_pos hq] at h1
  have h2 : ((2 ^ 52 : ℤ) : ℚ) ≤ q * 2 ^ (52 - binade q) := by
    calc ((2 ^ 52 : ℤ) : ℚ) = 2 ^ binade q * 2 ^ (52 - binade q) := by
          rw [← zpow_add₀ (by norm_num : (2 : ℚ) ≠ 0)]
          rw [show binade q + (52 - binade q) = (52 : ℤ) by omega]; norm_num
      _ ≤ q * 2 ^ (52 - binade q) := mul_le_mul_of_nonneg_right h1 (two_zpow_pos _).le
  have h3 := roundHalfEven_mono h2
  rw [roundHalfEven_intCast] at h3
  unfold roundQ
  calc (2 : ℚ) ^ binade q = ((2 ^ 52 : ℤ) : ℚ) * 2 ^ (binade q - 52) := by
        rw [show ((2 ^ 52 : ℤ) : ℚ) = 2 ^ (52 : ℤ) by norm_num,
          ← zpow_add₀ (by norm_num : (2 : ℚ) ≠ 0)]
        congr 1; omega
    _ ≤ _ := mul_le_mul_of_nonneg_right (by exact_mod_cast h3) (two_zpow_pos _).le

/-- Rounding is monotone on the non-negative rationals. -/
theorem roundQ_mono {q₁ q₂ : ℚ} (h0 : 0 ≤ q₁) (h : q₁ ≤ q₂) : roundQ q₁ ≤ roundQ q₂ := by
  rcases h0.lt_or_eq with hpos | hzero
  · have hb : binade q₁ ≤ binade q₂ :=
      binade_mono hpos.ne' (by rwa [abs_of_pos hpos, abs_of_pos (hpos.trans_le h)])
    rcases hb.lt_or_eq with hlt | heq
    · calc roundQ q₁ ≤ 2 ^ (binade q₁ + 1) := roundQ_le_two_zpow q₁
        _ ≤ 2 ^ binade q₂ := two_zpow_mono (by omega)
        _ ≤ roundQ q₂ := two_zpow_le_roundQ (hpos.trans_le h) (by have := binade_ge q₁; omega)
    · unfold roundQ
      rw [heq]
      apply mul_le_mul_of_nonneg_right _ (two_zpow_pos _).le
      have := roundHalfEven_mono (mul_le_mul_of_nonneg_right h (two_zpow_pos (52 - binade q₂)).le)
      exact_mod_cast this
  · rw [← hzero, roundQ_zero]; exact roundQ_nonneg (h0.trans h)

theorem round_of_abs_le {q : ℚ} (h : |roundQ q| ≤ 2 ^ (64 : ℤ)) : F64.round q = .fin (roundQ q) := by
  unfold F64.round
  rw [if_neg]
  rw [not_le]
  calc |roundQ q| ≤ 2 ^ (64 : ℤ) := h
    _ < 2 ^ (1024 : ℕ) := by norm_num

theorem roundQ_le_of_le {q : ℚ} (k : ℤ) (hk : -1074 ≤ k) (h0 : 0 ≤ q) (h : q ≤ 2 ^ k) :
    roundQ q ≤ 2 ^ k := by
  have := roundQ_mono h0 h
  rwa [roundQ_two_zpow k hk] at this

theorem round_of_nonneg_le {q : ℚ} (h0 : 0 ≤ q) (h : q ≤ 2 ^ (64 : ℤ)) :
    F64.round q = .fin (roundQ q) :=
  round_of_abs_le (by
    rw [abs_of_nonneg (roundQ_nonneg h0)]; exact roundQ_le_of_le 64 (by norm_num) h0 h)

theorem one_le_roundQ {q : ℚ} (h : 1 ≤ q) : 1 ≤ roundQ q := by
  have := roundQ_mono (by norm_num : (0 : ℚ) ≤ 1) h
  rwa [show (1 : ℚ) = 2 ^ (0 : ℤ) by norm_num, roundQ_two_zpow 0 (by norm_num)] at this

theorem roundQ_le_one {q : ℚ} (h0 : 0 ≤ q) (h : q ≤ 1) : roundQ q ≤ 1 := by
  have := roundQ_le_of_le 0 (by norm_num) h0 (by simpa using h)
  simpa using this

theorem intCast_le_two_pow {n : ℤ} (h : n ≤ 2 ^ 63) : (n : ℚ) ≤ 2 ^ (63 : ℤ) := by
  have : (n : ℚ) ≤ ((2 ^ 63 : ℤ) : ℚ) := by exact_mod_cast h
  calc (n : ℚ) ≤ ((2 ^ 63 : ℤ) : ℚ) := this
    _ = 2 ^ (63 : ℤ) := by norm_num

/-- The value computed by `instability` on non-negative `int`s that are not
both zero: the three roundings spelled out, with their bounds. -/
theorem instability_of_pos (Ce Ca : ℤ) (hCe : 0 ≤ Ce) (hCa : 0 ≤ Ca) (hCe63 : Ce < 2 ^ 63)
    (hCa63 : Ca < 2 ^ 63) (hpos : 0 < Ce + Ca) :
    F64.div (F64.ofInt Ce) (F64.add (F64.ofInt Ce) (F64.ofInt Ca))
        = .fin (roundQ (roundQ Ce / roundQ (roundQ Ce + roundQ Ca)))
      ∧ 0 ≤ roundQ (roundQ Ce / roundQ (roundQ Ce + roundQ Ca))
      ∧ roundQ (roundQ Ce / roundQ (roundQ Ce + roundQ Ca)) ≤ 1 := by
  have ha0 : (0 : ℚ) ≤ Ce := by exact_mod_cast hCe
  have hb0 : (0 : ℚ) ≤ Ca := by exact_mod_cast hCa
  have ha63 : (Ce : ℚ) ≤ 2 ^ (63 : ℤ) := intCast_le_two_pow hCe63.le
  have hb63 : (Ca : ℚ) ≤ 2 ^ (63 : ℤ) := intCast_le_two_pow hCa63.le
  have h6364 : (2 : ℚ) ^ (63 : ℤ) ≤ 2 ^ (64 : ℤ) := two_zpow_mono (by norm_num)
  have hra0 := roundQ_nonneg ha0
  have hrb0 := roundQ_nonneg hb0
  have hra := roundQ_le_of_le 63 (by norm_num) ha0 ha63
  have hrb := roundQ_le_of_le 63 (by norm_num) hb0 hb63
  have hsum0 : 0 ≤ roundQ Ce + roundQ Ca := add_nonneg hra0 hrb0
  have hsum64 : roundQ Ce + roundQ Ca ≤ 2 ^ (64 : ℤ) := by
    have : (2 : ℚ) ^ (64 : ℤ) = 2 ^ (63 : ℤ) + 2 ^ (63 : ℤ) := by norm_num
    linarith
  have hsum1 : 1 ≤ roundQ Ce + roundQ Ca := by
    rcases hCe.lt_or_eq with h | h
    · have : (1 : ℚ) ≤ Ce := by exact_mod_cast h
      linarith [one_le_roundQ this]
    · have h' : 0 < Ca := by omega
      have : (1 : ℚ) ≤ Ca := by exact_mod_cast h'
      linarith [one_le_roundQ this]
  have hs1 : 1 ≤ roundQ (roundQ Ce + roundQ Ca) := one_le_roundQ hsum1
  have hsa : roundQ Ce ≤ roundQ (roundQ Ce + roundQ Ca) := by
    have := roundQ_mono hra0 (by linarith : roundQ Ce ≤ roundQ Ce + roundQ Ca)
    rwa [roundQ_idem] at this
  have hspos : 0 < roundQ (roundQ Ce + roundQ Ca) := by linarith
  have hq0 : 0 ≤ roundQ Ce / roundQ (roundQ Ce + roundQ Ca) := div_nonneg hra0 hspos.le
  have hq1 : roundQ Ce / roundQ (roundQ Ce + roundQ Ca) ≤ 1 := (div_le_one hspos).mpr hsa
  refine ⟨?_, roundQ_nonneg hq0, roundQ_le_one hq0 hq1⟩
  unfold F64.ofInt
  rw [round_of_nonneg_le ha0 (ha63.trans h6364), round_of_nonneg_le hb0 (hb63.trans h6364)]
  simp only [F64.add]
  rw [round_of_nonneg_le hsum0 hsum64]
  simp only [F64.div, if_neg hspos.ne']
  exact round_of_nonneg_le hq0 (hq1.trans (by norm_num))

theorem instability_zero_zero : instability 0 0 = .fin 0 := by
  have h0 : F64.round 0 = .fin 0 := by
    rw [round_of_nonneg_le le_rfl (by norm_num), roundQ_zero]
  simp [instability, F64.ofInt, h0, F64.add, F64.div, F64.isNaN]

theorem functionCalls_nil (upper : Char → Bool) (path : String) (file : File) :
    functionCalls upper path file [] = 0 := by
  rw [functionCalls_eq_sum]
  apply List.sum_eq_zero
  intro v hv
  obtain ⟨n, _, rfl⟩ := List.mem_map.mp hv
  cases n with
  | callExpr fn args =>
    cases fn with
    | selectorExpr x sel => simp [callContribution, functionCallsVisit, contains]
    | _ => rfl
  | _ => rfl

/-! ## The qualified-call counter -/

/-- C1: for every file and every inclusion list without an empty element,
`functionCalls` returns the number of nodes of the file, at any depth, that
are call expressions whose callee is a selector `q.M` with `q` a plain
identifier that is an element of the list and `M` an exported name; at every
node the closure adds one if the node is such a call and nothing otherwise. -/
theorem functionCalls_counts_qualified_exported_calls (upper : Char → Bool) (path : String)
    (file : File) (pkgs : List String) (h : ∀ p ∈ pkgs, p ≠ "") :
    functionCalls upper path file pkgs
        = (file.subnodes.countP (isQualifiedExportedCall upper pkgs) : Int)
      ∧ ∀ (n : Node) (fCalls : Int),
          (functionCallsVisit upper pkgs fCalls (some (.node n))).1
            = fCalls + (if isQualifiedExportedCall upper pkgs n = true then 1 else 0) := by
  constructor
  · rw [functionCalls_eq_sum, ← sum_indicator]
    congr 1
    exact List.map_congr_left (fun n _ => callContribution_eq upper pkgs h n)
  · intro n fCalls
    rw [functionCallsVisit_fst, callContribution_eq upper pkgs h n]

theorem functionCalls_counts_qualified_exported_calls_witness :
    (∀ p ∈ ["fmt", "pkg"], p ≠ "") ∧
      (functionCalls greekUpper "demo.go" demoFile ["fmt", "pkg"]
          = (demoFile.subnodes.countP (isQualifiedExportedCall greekUpper ["fmt", "pkg"]) : Int)
        ∧ ∀ (n : Node) (fCalls : Int),
            (functionCallsVisit greekUpper ["fmt", "pkg"] fCalls (some (.node n))).1
              = fCalls
                + (if isQualifiedExportedCall greekUpper ["fmt", "pkg"] n = true then 1 else 0)) :=
  ⟨by decide,
    functionCalls_counts_qualified_exported_calls greekUpper "demo.go" demoFile ["fmt", "pkg"]
      (by decide)⟩

/-- In `demoFile` only `fmt.Println(...)` counts: `a.b.Func()` has a selector as
qualifier, `helper()` has no qualifier and `pkg.lower` is not exported. -/
theorem functionCalls_demoFile :
    functionCalls greekUpper "demo.go" demoFile ["fmt", "pkg"] = 1 := by
  decide

/-- C2, as stated, fails: with the empty string in the inclusion list the call
`a.b.Func()`, whose qualifier is not a plain identifier, is counted. The
closure adds one at that call, and the file whose only call expression it is
has count one. -/
theorem chained_call_counted_with_empty_element :
    (functionCallsVisit greekUpper [""] 0 (some (.node chainedCall))).1 = 1
      ∧ chainedFile.subnodes.countP Node.isCall = 1
      ∧ functionCalls greekUpper "demo.go" chainedFile [""] = 1 := by
  decide

/-- C2, amended: for every inclusion list that does not contain the empty
string, a call whose callee is a selector with a qualifier that is not a plain
identifier leaves the counter of `functionCalls` unchanged. -/
theorem nonIdent_qualifier_not_counted (upper : Char → Bool) (pkgs : List String)
    (h : "" ∉ pkgs) (x : Node) (sel : String) (args : List Node)
    (hx : ∀ name, x ≠ .ident name) (fCalls : Int) :
    (functionCallsVisit upper pkgs fCalls
        (some (.node (.callExpr (.selectorExpr x sel) args)))).1 = fCalls := by
  have hempty : contains pkgs "" = false := by
    rw [Bool.eq_false_iff, Ne, contains_iff]; exact h
  cases x with
  | ident name => exact absurd rfl (hx name)
  | _ => simp [functionCallsVisit, hempty]

theorem nonIdent_qualifier_not_counted_witness :
    "" ∉ ["fmt", "pkg"] ∧ (∀ name, Node.selectorExpr (.ident "a") "b" ≠ .ident name) ∧
      (functionCallsVisit greekUpper ["fmt", "pkg"] 7
        (some (.node (.callExpr (.selectorExpr (.selectorExpr (.ident "a") "b") "Func") [])))).1
        = 7 :=
  ⟨by decide, fun _ h => Node.noConfusion h,
    nonIdent_qualifier_not_counted greekUpper ["fmt", "pkg"] (by decide)
      (.selectorExpr (.ident "a") "b") "Func" [] (fun _ h => Node.noConfusion h) 7⟩

/-- C8: with an empty inclusion list `functionCalls` returns 0 for every file,
and for a file none of whose nodes is a call expression it returns 0 for every
inclusion list. -/
theorem functionCalls_zero (upper : Char → Bool) (path : String) (file : File) :
    functionCalls upper path file [] = 0
      ∧ ((∀ n ∈ file.subnodes, n.isCall = false) →
          ∀ pkgs : List String, functionCalls upper path file pkgs = 0) := by
  constructor
  · rw [functionCalls_nil]
  · intro hno pkgs
    rw [functionCalls_eq_sum]
    apply List.sum_eq_zero
    intro v hv
    obtain ⟨n, hn, rfl⟩ := List.mem_map.mp hv
    exact callContribution_not_call upper pkgs n (hno n hn)

theorem functionCalls_zero_witness :
    (∀ n ∈ noCallFile.subnodes, n.isCall = false)
      ∧ functionCalls greekUpper "demo.go" noCallFile [] = 0
      ∧ ∀ pkgs : List String, functionCalls greekUpper "demo.go" noCallFile pkgs = 0 :=
  ⟨by decide, (functionCalls_zero greekUpper "demo.go" noCallFile).1,
    (functionCalls_zero greekUpper "demo.go" noCallFile).2 (by decide)⟩

/-! ## The declaration counter -/

/-- C3: for every file, `exportedFuncs` returns the number of declarations of
the file that are function or method declarations with an exported name,
whether or not they have a receiver; at a declaration of another kind and
at every node that is not a declaration the closure leaves the counter
unchanged; a file without declarations yields 0. -/
theorem exportedFuncs_counts_exported_funcDecls (upper : Char → Bool) (path : String)
    (file : File) :
    exportedFuncs upper path file = (file.decls.countP (isExportedFuncDecl upper) : Int)
      ∧ (∀ (recv body : Option Node) (name : String) (type : Node),
          isExportedFuncDecl upper (.funcDecl recv name type body) = IsExported upper name)
      ∧ (∀ (specs : List Node) (exported : Int),
          (exportedFuncsVisit upper exported (some (.decl (.genDecl specs)))).1 = exported)
      ∧ (∀ exported : Int, (exportedFuncsVisit upper exported (some (.decl .badDecl))).1 = exported)
      ∧ (∀ (n : Node) (exported : Int),
          (exportedFuncsVisit upper exported (some (.node n))).1 = exported)
      ∧ (∀ (f : File) (exported : Int),
          (exportedFuncsVisit upper exported (some (.file f))).1 = exported)
      ∧ exportedFuncs upper path ⟨file.name, []⟩ = 0 := by
  refine ⟨?_, fun _ _ _ _ => rfl, fun _ _ => rfl, fun _ => rfl, fun _ _ => rfl, fun _ _ => rfl, ?_⟩
  · rw [exportedFuncs_eq_sum, ← sum_indicator]
    congr 1
    exact List.map_congr_left (fun d _ => declContribution_decl upper d)
  · rw [exportedFuncs_eq_sum]; rfl

/-- C10: the documentation of `main` counts exported structs as inward
coupling, but `exportedFuncs` does not: adding a declaration `type T struct{}`
anywhere among the declarations of a file leaves its result unchanged, and the
file `package shapes; type Shape struct{}` has the count 0, not 1. -/
theorem struct_decl_not_counted (upper : Char → Bool) (path name tname : String)
    (pre post : List Decl) :
    exportedFuncs upper path ⟨name, pre ++ structDecl tname :: post⟩
        = exportedFuncs upper path ⟨name, pre ++ post⟩
      ∧ IsExported greekUpper "Shape" = true
      ∧ exportedFuncs greekUpper "shapes.go" ⟨"shapes", [structDecl "Shape"]⟩ = 0 := by
  refine ⟨?_, by decide, by decide⟩
  simp only [exportedFuncs_eq_sum, List.map_append, List.map_cons, List.sum_append,
    List.sum_cons, structDecl, declContribution_decl, isExportedFuncDecl]
  simp

/-! ## Exported names -/

theorem IsUpper_runeError (upper : Char → Bool) : IsUpper upper RuneError = upper RuneError := by
  have : ¬ RuneError.toNat ≤ 0xFF := by decide
  simp [IsUpper, this]

theorem IsUpper_ascii_other (upper : Char → Bool) (c : Char)
    (h : c.toNat < 0x41 ∨ (0x5A < c.toNat ∧ c.toNat < 0xC0)) : IsUpper upper c = false := by
  have h1 : c.toNat ≤ 0xFF := by omega
  simp only [IsUpper, h1, if_true, latin1IsUpper, Bool.or_eq_false_iff, Bool.and_eq_false_iff,
    decide_eq_false_iff_not]
  omega

/-- C7: the exportedness test is the function `IsExported` of the name alone.
It is true exactly when the name is non-empty and its first character is an
upper-case letter (`unicode.IsUpper`); it is false for the empty string and
for a name whose first character is an ASCII character other than `A`-`Z`
(a lower-case letter, a digit, the underscore, any other ASCII symbol). Both
closures apply this same function: to the name of a function declaration,
whatever its receiver, type and body, and to the member name of a selector
call. The hypothesis states that `U+FFFD` is not in the table
`unicode.Upper`. -/
theorem IsExported_iff_first_upper (upper : Char → Bool) (hrep : upper RuneError = false)
    (name : String) :
    (IsExported upper name = true
        ↔ ∃ (c : Char) (rest : List Char), name.data = c :: rest ∧ IsUpper upper c = true)
      ∧ IsExported upper "" = false
      ∧ (∀ (c : Char) (rest : List Char), name.data = c :: rest →
          (c.toNat < 0x41 ∨ (0x5A < c.toNat ∧ c.toNat < 0xC0)) → IsExported upper name = false)
      ∧ (∀ (recv body : Option Node) (type : Node) (exported : Int),
          (exportedFuncsVisit upper exported (some (.decl (.funcDecl recv name type body)))).1
            = exported + (if IsExported upper name = true then 1 else 0))
      ∧ (∀ (pkgs : List String) (q : String) (args : List Node) (fCalls : Int), q ∈ pkgs →
          (functionCallsVisit upper pkgs fCalls
              (some (.node (.callExpr (.selectorExpr (.ident q) name) args)))).1
            = fCalls + (if IsExported upper name = true then 1 else 0)) := by
  refine ⟨?_, ?_, ?_, ?_, ?_⟩
  · unfold IsExported DecodeRuneInString
    cases hd : name.data with
    | nil => simp [IsUpper_runeError, hrep]
    | cons c rest => simp
  · show IsUpper upper RuneError = false
    rw [IsUpper_runeError, hrep]
  · intro c rest hd hc
    unfold IsExported DecodeRuneInString
    rw [hd]
    exact IsUpper_ascii_other upper c hc
  · intro recv body type exported
    by_cases he : IsExported upper name = true <;> simp [exportedFuncsVisit, he]
  · intro pkgs q args fCalls hq
    have hc : contains pkgs q = true := (contains_iff pkgs q).mpr hq
    by_cases he : IsExported upper name = true <;> simp [functionCallsVisit, he, hc]

theorem IsExported_iff_first_upper_witness :
    greekUpper RuneError = false
      ∧ (IsExported greekUpper "Println" = true
          ↔ ∃ (c : Char) (rest : List Char),
              "Println".data = c :: rest ∧ IsUpper greekUpper c = true) :=
  ⟨by decide, (IsExported_iff_first_upper greekUpper (by decide) "Println").1⟩

/-! ## The instability ratio -/

theorem instability_eq_of_pos (Ce Ca : ℤ) (hCe : 0 ≤ Ce) (hCa : 0 ≤ Ca) (hCe63 : Ce < 2 ^ 63)
    (hCa63 : Ca < 2 ^ 63) (hpos : 0 < Ce + Ca) :
    instability Ce Ca = .fin (roundQ (roundQ Ce / roundQ (roundQ Ce + roundQ Ca))) := by
  unfold instability
  simp only [(instability_of_pos Ce Ca hCe hCa hCe63 hCa63 hpos).1, F64.isNaN]
  rfl

/-- For a positive `n` the pair `(n, -n)` divides by zero: the sum of the two
conversions is exactly zero and the quotient is an infinity with the sign of
the numerator. -/
theorem instability_opposite (n : ℤ) (h0 : 0 < n) (h63 : n ≤ 2 ^ 63) :
    instability n (-n) = .inf false ∧ instability (-n) n = .inf true := by
  have hn0 : (0 : ℚ) ≤ n := by exact_mod_cast h0.le
  have hn1 : (1 : ℚ) ≤ n := by exact_mod_cast h0
  have hn63 : (n : ℚ) ≤ 2 ^ (64 : ℤ) :=
    (intCast_le_two_pow h63).trans (two_zpow_mono (by norm_num))
  have hr1 : 1 ≤ roundQ n := one_le_roundQ hn1
  have hpos : F64.round (n : ℚ) = .fin (roundQ n) := round_of_nonneg_le hn0 hn63
  have hneg : F64.round (-(n : ℚ)) = .fin (-roundQ n) := by
    have := round_of_abs_le (q := -(n : ℚ)) (by
      rw [roundQ_neg, abs_neg, abs_of_nonneg (roundQ_nonneg hn0)]
      exact roundQ_le_of_le 64 (by norm_num) hn0 hn63)
    rwa [roundQ_neg] at this
  have hzero : F64.round 0 = .fin 0 := by
    rw [round_of_nonneg_le le_rfl (by norm_num), roundQ_zero]
  have hne : roundQ (n : ℚ) ≠ 0 := by linarith
  have hlt : ¬ roundQ (n : ℚ) < 0 := by linarith
  have hlt2 : (0 : ℚ) < roundQ n := by linarith
  constructor
  · simp [instability, F64.ofInt, hpos, hneg, F64.add, hzero, F64.div, hne, hlt, F64.isNaN]
  · simp [instability, F64.ofInt, hpos, hneg, F64.add, hzero, F64.div, hne, hlt2, F64.isNaN]

/-- C4: for non-negative `int`s `Ce`, `Ca` with `Ce + Ca > 0`, the result of
`instability` is the `float64` quotient of the formula (the NaN fallback is
not taken), it is a finite number in the closed interval from 0 to 1, and
when `Ce + Ca` is at most `2^53` it is the `float64` nearest to the exact
quotient `Ce / (Ce + Ca)`. -/
theorem instability_formula_range (Ce Ca : ℤ) (hCe : 0 ≤ Ce) (hCa : 0 ≤ Ca)
    (hCe63 : Ce < 2 ^ 63) (hCa63 : Ca < 2 ^ 63) (hpos : 0 < Ce + Ca) :
    instability Ce Ca = F64.div (F64.ofInt Ce) (F64.add (F64.ofInt Ce) (F64.ofInt Ca))
      ∧ (∃ q : ℚ, instability Ce Ca = .fin q ∧ 0 ≤ q ∧ q ≤ 1)
      ∧ (Ce + Ca ≤ 2 ^ 53 → instability Ce Ca = F64.round ((Ce : ℚ) / ((Ce : ℚ) + (Ca : ℚ)))) := by
  have hmain := instability_of_pos Ce Ca hCe hCa hCe63 hCa63 hpos
  have heq := instability_eq_of_pos Ce Ca hCe hCa hCe63 hCa63 hpos
  refine ⟨by rw [heq, hmain.1], ⟨_, heq, hmain.2.1, hmain.2.2⟩, ?_⟩
  intro hsmall
  have ha : roundQ (Ce : ℚ) = Ce := roundQ_intCast Ce (by rw [abs_of_nonneg hCe]; omega)
  have hb : roundQ (Ca : ℚ) = Ca := roundQ_intCast Ca (by rw [abs_of_nonneg hCa]; omega)
  have hs : roundQ ((Ce : ℚ) + (Ca : ℚ)) = (Ce : ℚ) + (Ca : ℚ) := by
    have := roundQ_intCast (Ce + Ca) (by rw [abs_of_nonneg hpos.le]; exact hsmall)
    simpa using this
  have hq0 : (0 : ℚ) ≤ (Ce : ℚ) / ((Ce : ℚ) + (Ca : ℚ)) := by
    have h1 : (0 : ℚ) ≤ Ce := by exact_mod_cast hCe
    have h2 : (0 : ℚ) ≤ Ca := by exact_mod_cast hCa
    exact div_nonneg h1 (add_nonneg h1 h2)
  have hq1 : (Ce : ℚ) / ((Ce : ℚ) + (Ca : ℚ)) ≤ 1 := by
    have h2 : (0 : ℚ) ≤ Ca := by exact_mod_cast hCa
    have h3 : (0 : ℚ) < (Ce : ℚ) + (Ca : ℚ) := by exact_mod_cast hpos
    rw [div_le_one h3]; linarith
  rw [heq, ha, hb, hs, round_of_nonneg_le hq0 (hq1.trans (by norm_num))]

theorem instability_formula_range_witness :
    (0 : ℤ) ≤ 1 ∧ (0 : ℤ) ≤ 2 ∧ (1 : ℤ) < 2 ^ 63 ∧ (2 : ℤ) < 2 ^ 63 ∧ (0 : ℤ) < 1 + 2
      ∧ instability 1 2 = F64.div (F64.ofInt 1) (F64.add (F64.ofInt 1) (F64.ofInt 2))
      ∧ (∃ q : ℚ, instability 1 2 = .fin q ∧ 0 ≤ q ∧ q ≤ 1) :=
  ⟨by decide, by decide, by decide, by decide, by decide,
    (instability_formula_range 1 2 (by decide) (by decide) (by decide) (by decide)
      (by decide)).1,
    (instability_formula_range 1 2 (by decide) (by decide) (by decide) (by decide)
      (by decide)).2.1⟩

/-- C5: `instability(0, 0)` is exactly 0.0, and for every pair of non-negative
`int`s the result is neither NaN nor an infinity. -/
theorem instability_zero_and_finite (Ce Ca : ℤ) (hCe : 0 ≤ Ce) (hCa : 0 ≤ Ca)
    (hCe63 : Ce < 2 ^ 63) (hCa63 : Ca < 2 ^ 63) :
    instability 0 0 = .fin 0
      ∧ instability Ce Ca ≠ .nan
      ∧ ∀ neg : Bool, instability Ce Ca ≠ .inf neg := by
  refine ⟨instability_zero_zero, ?_⟩
  rcases (add_nonneg hCe hCa).lt_or_eq with hpos | hzero
  · rw [instability_eq_of_pos Ce Ca hCe hCa hCe63 hCa63 hpos]
    exact ⟨fun h => F64.noConfusion h, fun _ h => F64.noConfusion h⟩
  · have h1 : Ce = 0 := by omega
    have h2 : Ca = 0 := by omega
    rw [h1, h2, instability_zero_zero]
    exact ⟨fun h => F64.noConfusion h, fun _ h => F64.noConfusion h⟩

theorem instability_zero_and_finite_witness :
    (0 : ℤ) ≤ 3 ∧ (0 : ℤ) ≤ 0 ∧ (3 : ℤ) < 2 ^ 63 ∧ (0 : ℤ) < 2 ^ 63
      ∧ instability 0 0 = .fin 0 ∧ instability 3 0 ≠ .nan
      ∧ ∀ neg : Bool, instability 3 0 ≠ .inf neg :=
  ⟨by decide, by decide, by decide, by decide,
    instability_zero_and_finite 3 0 (by decide) (by decide) (by decide) (by decide)⟩

/-- C6, as stated, fails: `1 + (-1) == 0`, but `instability(1, -1)` divides
`1.0` by `0.0`, which is `+Inf` and not NaN, so the fallback is not taken. -/
theorem instability_one_minus_one :
    (1 : ℤ) + (-1) = 0 ∧ instability 1 (-1) = .inf false ∧ instability 1 (-1) ≠ .fin 0 := by
  have h := (instability_opposite 1 (by decide) (by decide)).1
  exact ⟨by decide, h, by rw [h]; exact fun h' => F64.noConfusion h'⟩

/-- C6, amended: among the pairs of `int`s with `Ce + Ca == 0`, `instability`
returns exactly 0.0 for the pair `(0, 0)`; for `Ce > 0` it returns `+Inf` and
for `Ce < 0` it returns `-Inf`. -/
theorem instability_sum_zero (Ce Ca : ℤ) (hCe : -2 ^ 63 ≤ Ce) (hCe63 : Ce < 2 ^ 63)
    (hCa : -2 ^ 63 ≤ Ca) (hCa63 : Ca < 2 ^ 63) (hsum : Ce + Ca = 0) :
    (Ce = 0 → instability Ce Ca = .fin 0)
      ∧ (0 < Ce → instability Ce Ca = .inf false)
      ∧ (Ce < 0 → instability Ce Ca = .inf true) := by
  have hCa' : Ca = -Ce := by omega
  refine ⟨?_, ?_, ?_⟩
  · intro h
    rw [hCa', h]; exact instability_zero_zero
  · intro h
    rw [hCa']; exact (instability_opposite Ce h hCe63.le).1
  · intro h
    have hCe' : Ce = -Ca := by omega
    rw [hCe']; exact (instability_opposite Ca (by omega) hCa63.le).2

theorem instability_sum_zero_witness :
    (-2 ^ 63 : ℤ) ≤ -5 ∧ (-5 : ℤ) < 2 ^ 63 ∧ (-2 ^ 63 : ℤ) ≤ 5 ∧ (5 : ℤ) < 2 ^ 63
      ∧ (-5 : ℤ) + 5 = 0 ∧ instability (-5) 5 = .inf true :=
  ⟨by decide, by decide, by decide, by decide, by decide,
    (instability_sum_zero (-5) 5 (by decide) (by decide) (by decide) (by decide)
      (by decide)).2.2 (by decide)⟩

/-! ## The report loop -/

theorem reportRows_path (upper : Char → Bool) (goPath : String) (pkgs : List String)
    (order : List (String × File)) :
    (reportRows upper goPath pkgs order).map Row.path
      = order.map (fun e => String.mk (removeFirst (goPath ++ "/").data e.1.data)) := by
  simp [reportRows, reportRow, List.map_map, Function.comp_def]

/-- C9, as stated, fails: the loop ranges over a Go map. For the two files
`a.go`, `b.go`, discovered in this order, one run can print the row of `a.go`
first and another run the row of `b.go` first; the two outputs differ, and the
second is not in discovery order. -/
theorem report_order_not_fixed :
    MainLoop greekUpper "/go" ["fmt"] twoFiles (reportRows greekUpper "/go" ["fmt"] twoFiles)
      ∧ MainLoop greekUpper "/go" ["fmt"] twoFiles
          (reportRows greekUpper "/go" ["fmt"] twoFiles.reverse)
      ∧ reportRows greekUpper "/go" ["fmt"] twoFiles
          ≠ reportRows greekUpper "/go" ["fmt"] twoFiles.reverse := by
  refine ⟨⟨twoFiles, List.Perm.refl _, rfl⟩, ⟨twoFiles.reverse, List.reverse_perm _, rfl⟩, ?_⟩
  intro h
  have h2 := congrArg (List.map Row.path) h
  rw [reportRows_path, reportRows_path] at h2
  revert h2
  decide

/-- C9, amended: two runs of the report loop on the same map entries and the
same inclusion list print the same rows, one for each file, up to their
order: each output is a rearrangement of the other and of the rows listed in
discovery order. -/
theorem report_rows_perm (upper : Char → Bool) (goPath : String) (pkgs : List String)
    (asts : List (String × File)) (rows₁ rows₂ : List Row)
    (h₁ : MainLoop upper goPath pkgs asts rows₁) (h₂ : MainLoop upper goPath pkgs asts rows₂) :
    rows₁.Perm rows₂ ∧ rows₁.Perm (reportRows upper goPath pkgs asts)
      ∧ rows₁.length = asts.length := by
  obtain ⟨o₁, hp₁, rfl⟩ := h₁
  obtain ⟨o₂, hp₂, rfl⟩ := h₂
  unfold RangeOrder at hp₁ hp₂
  refine ⟨(hp₁.trans hp₂.symm).map _, hp₁.map _, ?_⟩
  simp [reportRows, hp₁.length_eq]

theorem report_rows_perm_witness :
    MainLoop greekUpper "/go" ["fmt"] twoFiles (reportRows greekUpper "/go" ["fmt"] twoFiles)
      ∧ MainLoop greekUpper "/go" ["fmt"] twoFiles
          (reportRows greekUpper "/go" ["fmt"] twoFiles.reverse)
      ∧ (reportRows greekUpper "/go" ["fmt"] twoFiles).Perm
          (reportRows greekUpper "/go" ["fmt"] twoFiles.reverse) :=
  ⟨⟨twoFiles, List.Perm.refl _, rfl⟩, ⟨twoFiles.reverse, List.reverse_perm _, rfl⟩,
    (report_rows_perm greekUpper "/go" ["fmt"] twoFiles _ _
      ⟨twoFiles, List.Perm.refl _, rfl⟩ ⟨twoFiles.reverse, List.reverse_perm _, rfl⟩).1⟩

/-! ## Order, sign and the inclusion list -/

theorem sum_flatten_map {α β : Type} (f : α → List β) (g : β → Int) (l : List α) :
    (((l.map f).flatten).map g).sum = (l.map (fun a => ((f a).map g).sum)).sum := by
  induction l with
  | nil => simp
  | cons a rest ih =>
    simp only [List.map_cons, List.flatten_cons, List.map_append, List.sum_append,
      List.sum_cons, ih]

/-- The count of `functionCalls` as a sum over the declarations of the sums of
the closure's contributions below each declaration. -/
theorem functionCalls_eq_sum_decls (upper : Char → Bool) (path : String) (file : File)
    (pkgs : List String) :
    functionCalls upper path file pkgs
      = (file.decls.map (fun d =>
          (d.subnodes.map (fun n => callContribution upper pkgs (.node n))).sum)).sum := by
  rw [functionCalls_eq_sum, File.subnodes, List.map_cons, List.sum_cons, sum_flatten_map]
  have h0 : callContribution upper pkgs (.node (.ident file.name)) = 0 := rfl
  rw [h0, zero_add]

theorem counter_step_nonneg (a e : Bool) :
    0 ≤ (if a = true then
          (if e = true then (((0 : Int) + 1, true) : Int × Bool) else (0, true))
        else (0, true)).1 := by
  cases a <;> cases e <;> simp

theorem counter_step_le (a b e : Bool) (hab : a = true → b = true) :
    (if a = true then
        (if e = true then (((0 : Int) + 1, true) : Int × Bool) else (0, true))
      else (0, true)).1
      ≤ (if b = true then
          (if e = true then (((0 : Int) + 1, true) : Int × Bool) else (0, true))
        else (0, true)).1 := by
  cases a <;> cases b <;> cases e <;> simp at hab ⊢

theorem callContribution_nonneg (upper : Char → Bool) (pkgs : List String) (n : AstNode) :
    0 ≤ callContribution upper pkgs n := by
  cases n with
  | node m =>
    cases m with
    | callExpr fn args =>
      cases fn with
      | selectorExpr x sel => cases x <;> exact counter_step_nonneg _ _
      | _ => exact le_refl _
    | _ => exact le_refl _
  | _ => exact le_refl _

theorem declContribution_nonneg (upper : Char → Bool) (d : Decl) :
    0 ≤ declContribution upper (.decl d) := by
  rw [declContribution_decl]; split_ifs <;> simp

/-- The closure's contribution at a node depends on the inclusion list only
through `contains`, and grows with it. -/
theorem callContribution_mono (upper : Char → Bool) (A B : List String)
    (h : ∀ x, contains A x = true → contains B x = true) (n : AstNode) :
    callContribution upper A n ≤ callContribution upper B n := by
  cases n with
  | node m =>
    cases m with
    | callExpr fn args =>
      cases fn with
      | selectorExpr x sel => cases x <;> exact counter_step_le _ _ _ (h _)
      | _ => exact le_refl _
    | _ => exact le_refl _
  | _ => exact le_refl _

/-- C12: reordering the top-level declarations of a file changes neither the
result of `exportedFuncs` nor, for any inclusion list, the result of
`functionCalls`. -/
theorem counts_invariant_under_decl_reordering (upper : Char → Bool) (path name : String)
    (decls₁ decls₂ : List Decl) (h : decls₁.Perm decls₂) :
    exportedFuncs upper path ⟨name, decls₁⟩ = exportedFuncs upper path ⟨name, decls₂⟩
      ∧ ∀ pkgs : List String,
          functionCalls upper path ⟨name, decls₁⟩ pkgs
            = functionCalls upper path ⟨name, decls₂⟩ pkgs := by
  constructor
  · rw [exportedFuncs_eq_sum, exportedFuncs_eq_sum]
    exact (h.map _).sum_eq
  · intro pkgs
    rw [functionCalls_eq_sum_decls, functionCalls_eq_sum_decls]
    exact (h.map _).sum_eq

theorem counts_invariant_under_decl_reordering_witness :
    demoFile.decls.Perm demoFile.decls.reverse
      ∧ exportedFuncs greekUpper "demo.go" ⟨"demo", demoFile.decls⟩
          = exportedFuncs greekUpper "demo.go" ⟨"demo", demoFile.decls.reverse⟩
      ∧ ∀ pkgs : List String,
          functionCalls greekUpper "demo.go" ⟨"demo", demoFile.decls⟩ pkgs
            = functionCalls greekUpper "demo.go" ⟨"demo", demoFile.decls.reverse⟩ pkgs :=
  ⟨(List.reverse_perm _).symm,
    counts_invariant_under_decl_reordering greekUpper "demo.go" "demo" demoFile.decls
      demoFile.decls.reverse (List.reverse_perm _).symm⟩

/-- C13: for every file and every inclusion list the results of `exportedFuncs`
and of `functionCalls` are not negative. -/
theorem counts_nonneg (upper : Char → Bool) (path : String) (file : File) :
    0 ≤ exportedFuncs upper path file
      ∧ ∀ pkgs : List String, 0 ≤ functionCalls upper path file pkgs := by
  constructor
  · rw [exportedFuncs_eq_sum]
    apply List.sum_nonneg
    intro v hv
    obtain ⟨d, _, rfl⟩ := List.mem_map.mp hv
    exact declContribution_nonneg upper d
  · intro pkgs
    rw [functionCalls_eq_sum]
    apply List.sum_nonneg
    intro v hv
    obtain ⟨n, _, rfl⟩ := List.mem_map.mp hv
    exact callContribution_nonneg upper pkgs (.node n)

/-- C14: two inclusion lists with the same elements, whatever their order and
repetitions, give the same result of `functionCalls` on every file. -/
theorem functionCalls_same_elements (upper : Char → Bool) (path : String) (file : File)
    (A B : List String) (h : ∀ x, x ∈ A ↔ x ∈ B) :
    functionCalls upper path file A = functionCalls upper path file B := by
  have hAB : ∀ x, contains A x = true → contains B x = true :=
    fun x hx => (contains_iff B x).mpr ((h x).mp ((contains_iff A x).mp hx))
  have hBA : ∀ x, contains B x = true → contains A x = true :=
    fun x hx => (contains_iff A x).mpr ((h x).mpr ((contains_iff B x).mp hx))
  rw [functionCalls_eq_sum, functionCalls_eq_sum]
  congr 1
  exact List.map_congr_left (fun n _ =>
    le_antisymm (callContribution_mono upper A B hAB _) (callContribution_mono upper B A hBA _))

theorem functionCalls_same_elements_witness :
    (∀ x, x ∈ ["fmt", "pkg"] ↔ x ∈ ["pkg", "fmt", "pkg"])
      ∧ functionCalls greekUpper "demo.go" demoFile ["fmt", "pkg"]
          = functionCalls greekUpper "demo.go" demoFile ["pkg", "fmt", "pkg"] :=
  ⟨by intro x; simp only [List.mem_cons, List.mem_nil_iff, or_false]; tauto,
    functionCalls_same_elements greekUpper "demo.go" demoFile ["fmt", "pkg"]
      ["pkg", "fmt", "pkg"] (by intro x; simp only [List.mem_cons, List.mem_nil_iff, or_false]; tauto)⟩

/-- C15: if every element of the inclusion list `A` is an element of `B`, then
on every file the result of `functionCalls` for `A` is at most the result for
`B`. -/
theorem functionCalls_mono (upper : Char → Bool) (path : String) (file : File)
    (A B : List String) (h : ∀ x ∈ A, x ∈ B) :
    functionCalls upper path file A ≤ functionCalls upper path file B := by
  have hAB : ∀ x, contains A x = true → contains B x = true :=
    fun x hx => (contains_iff B x).mpr (h x ((contains_iff A x).mp hx))
  rw [functionCalls_eq_sum, functionCalls_eq_sum]
  exact List.sum_le_sum (fun n _ => callContribution_mono upper A B hAB (.node n))

theorem functionCalls_mono_witness :
    (∀ x ∈ ["pkg"], x ∈ ["fmt", "pkg"])
      ∧ functionCalls greekUpper "demo.go" demoFile ["pkg"]
          ≤ functionCalls greekUpper "demo.go" demoFile ["fmt", "pkg"] :=
  ⟨by decide,
    functionCalls_mono greekUpper "demo.go" demoFile ["pkg"] ["fmt", "pkg"] (by decide)⟩

/-! ## The ratio on the counts of a file -/

/-- Doubling a rounded value is exact. -/
theorem roundQ_double (q : ℚ) : roundQ (2 * roundQ q) = 2 * roundQ q := by
  have h1 := roundHalfEven_scaled_le q
  have h2 := neg_le_roundHalfEven_scaled q
  have h3 := binade_ge q
  have key : 2 * roundQ q
      = ((roundHalfEven (q * 2 ^ (52 - binade q)) : ℤ) : ℚ) * 2 ^ (binade q - 52 + 1) := by
    rw [zpow_add₀ (by norm_num : (2 : ℚ) ≠ 0), zpow_one]
    unfold roundQ
    ring
  rw [key]
  exact roundQ_exact _ (binade q - 52 + 1) (abs_le.mpr ⟨h2, h1⟩) (by omega)

theorem roundQ_one : roundQ 1 = 1 := by
  have := roundQ_two_zpow 0 (by norm_num)
  simpa using this

theorem roundQ_half : roundQ (1 / 2) = 1 / 2 := by
  have := roundQ_two_zpow (-1) (by norm_num)
  rw [show (2 : ℚ) ^ (-1 : ℤ) = 1 / 2 by norm_num] at this
  exact this

theorem one_le_roundQ_intCast {n : ℤ} (h : 0 < n) : 1 ≤ roundQ (n : ℚ) :=
  one_le_roundQ (by exact_mod_cast h)

/-- With no outward call and at least one exported function the ratio is 0. -/
theorem instability_zero_left (n : ℤ) (h0 : 0 < n) (h63 : n < 2 ^ 63) :
    instability 0 n = .fin 0 := by
  rw [instability_eq_of_pos 0 n le_rfl h0.le (by norm_num) h63 (by omega)]
  simp [roundQ_zero]

/-- With no exported function and at least one outward call the ratio is 1. -/
theorem instability_zero_right (n : ℤ) (h0 : 0 < n) (h63 : n < 2 ^ 63) :
    instability n 0 = .fin 1 := by
  rw [instability_eq_of_pos n 0 h0.le le_rfl h63 (by norm_num) (by omega)]
  have hne : roundQ (n : ℚ) ≠ 0 := by
    have := one_le_roundQ_intCast h0
    linarith
  simp only [Int.cast_zero, roundQ_zero, add_zero, roundQ_idem, div_self hne, roundQ_one]

/-- With as many outward calls as exported functions the ratio is one half. -/
theorem instability_same (n : ℤ) (h0 : 0 < n) (h63 : n < 2 ^ 63) :
    instability n n = .fin (1 / 2) := by
  rw [instability_eq_of_pos n n h0.le h0.le h63 h63 (by omega)]
  have hne : roundQ (n : ℚ) ≠ 0 := by
    have := one_le_roundQ_intCast h0
    linarith
  have hq : roundQ (n : ℚ) / (2 * roundQ (n : ℚ)) = 1 / 2 := by
    field_simp
    ring
  rw [← two_mul, roundQ_double, hq, roundQ_half]

/-- With no empty string in the inclusion list, `functionCalls` returns the
number of qualified exported calls among the nodes of the file. -/
theorem functionCalls_eq_countP (upper : Char → Bool) (path : String) (file : File)
    (pkgs : List String) (h : ∀ p ∈ pkgs, p ≠ "") :
    functionCalls upper path file pkgs
      = (file.subnodes.countP (isQualifiedExportedCall upper pkgs) : Int) := by
  rw [functionCalls_eq_sum, ← sum_indicator]
  congr 1
  exact List.map_congr_left (fun n _ => callContribution_eq upper pkgs h n)

/-- The result of `exportedFuncs` is the number of exported function
declarations among the declarations of the file. -/
theorem exportedFuncs_eq_countP (upper : Char → Bool) (path : String) (file : File) :
    exportedFuncs upper path file = (file.decls.countP (isExportedFuncDecl upper) : Int) := by
  rw [exportedFuncs_eq_sum, ← sum_indicator]
  congr 1
  exact List.map_congr_left (fun d _ => declContribution_decl upper d)

/-- C11, as stated, fails: the file `package demo; func Run() { a.b.Func() }`
has one exported function and no qualifying call, its only call having a
selector as qualifier; with the empty string in the inclusion list the code
counts that call, so the two counts are 1 and 1 and the result is 0.5, not
0.0. -/
theorem scenario_zero_fails_with_empty_element :
    0 < chainedRunFile.decls.countP (isExportedFuncDecl greekUpper)
      ∧ chainedRunFile.subnodes.countP (isQualifiedExportedCall greekUpper [""]) = 0
      ∧ exportedFuncs greekUpper "demo.go" chainedRunFile = 1
      ∧ functionCalls greekUpper "demo.go" chainedRunFile [""] = 1
      ∧ instability (functionCalls greekUpper "demo.go" chainedRunFile [""])
          (exportedFuncs greekUpper "demo.go" chainedRunFile) = .fin (1 / 2)
      ∧ instability (functionCalls greekUpper "demo.go" chainedRunFile [""])
          (exportedFuncs greekUpper "demo.go" chainedRunFile) ≠ .fin 0 := by
  have he : exportedFuncs greekUpper "demo.go" chainedRunFile = 1 := by decide
  have hf : functionCalls greekUpper "demo.go" chainedRunFile [""] = 1 := by decide
  have hi : instability (functionCalls greekUpper "demo.go" chainedRunFile [""])
      (exportedFuncs greekUpper "demo.go" chainedRunFile) = .fin (1 / 2) := by
    rw [he, hf]; exact instability_same 1 (by decide) (by decide)
  refine ⟨by decide, by decide, he, hf, hi, ?_⟩
  rw [hi]
  intro h
  have h2 : (1 : ℚ) / 2 = 0 := F64.fin.inj h
  norm_num at h2

/-- C11, amended: for every file and every inclusion list that does not
contain the empty string, with fewer than `2^63` exported functions and
qualifying calls, the per-file result
`instability(functionCalls, exportedFuncs)`, which is the `inst` field of the
file's report row, is exactly 0.0 when the file has an exported function
declaration and no qualifying call, exactly 1.0 when it has no exported
function declaration and a qualifying call, and exactly 0.5 when the number
of exported function declarations equals the positive number of qualifying
calls. -/
theorem per_file_instability_scenarios (upper : Char → Bool) (goPath path : String)
    (file : File) (pkgs : List String) (hpk : ∀ p ∈ pkgs, p ≠ "")
    (hin : (file.decls.countP (isExportedFuncDecl upper) : Int) < 2 ^ 63)
    (hout : (file.subnodes.countP (isQualifiedExportedCall upper pkgs) : Int) < 2 ^ 63) :
    (reportRow upper goPath pkgs path file).inst
        = instability (functionCalls upper path file pkgs) (exportedFuncs upper path file)
      ∧ (0 < file.decls.countP (isExportedFuncDecl upper) →
          file.subnodes.countP (isQualifiedExportedCall upper pkgs) = 0 →
          instability (functionCalls upper path file pkgs) (exportedFuncs upper path file)
            = .fin 0)
      ∧ (file.decls.countP (isExportedFuncDecl upper) = 0 →
          0 < file.subnodes.countP (isQualifiedExportedCall upper pkgs) →
          instability (functionCalls upper path file pkgs) (exportedFuncs upper path file)
            = .fin 1)
      ∧ (file.decls.countP (isExportedFuncDecl upper)
            = file.subnodes.countP (isQualifiedExportedCall upper pkgs) →
          0 < file.subnodes.countP (isQualifiedExportedCall upper pkgs) →
          instability (functionCalls upper path file pkgs) (exportedFuncs upper path file)
            = .fin (1 / 2)) := by
  refine ⟨rfl, ?_, ?_, ?_⟩
  · intro h1 h2
    rw [functionCalls_eq_countP upper path file pkgs hpk, exportedFuncs_eq_countP, h2]
    exact instability_zero_left _ (by exact_mod_cast h1) hin
  · intro h1 h2
    rw [functionCalls_eq_countP upper path file pkgs hpk, exportedFuncs_eq_countP, h1]
    exact instability_zero_right _ (by exact_mod_cast h2) hout
  · intro h1 h2
    rw [functionCalls_eq_countP upper path file pkgs hpk, exportedFuncs_eq_countP, h1]
    exact instability_same _ (by exact_mod_cast h2) hout

theorem per_file_instability_scenarios_witness :
    (∀ p ∈ ["fmt"], p ≠ "")
      ∧ (demoFile.decls.countP (isExportedFuncDecl greekUpper) : Int) < 2 ^ 63
      ∧ (demoFile.subnodes.countP (isQualifiedExportedCall greekUpper ["fmt"]) : Int) < 2 ^ 63
      ∧ demoFile.decls.countP (isExportedFuncDecl greekUpper)
          = demoFile.subnodes.countP (isQualifiedExportedCall greekUpper ["fmt"])
      ∧ 0 < demoFile.subnodes.countP (isQualifiedExportedCall greekUpper ["fmt"])
      ∧ instability (functionCalls greekUpper "demo.go" demoFile ["fmt"])
          (exportedFuncs greekUpper "demo.go" demoFile) = .fin (1 / 2) :=
  ⟨by decide, by decide, by decide, by decide, by decide,
    (per_file_instability_scenarios greekUpper "/go" "demo.go" demoFile ["fmt"] (by decide)
      (by decide) (by decide)).2.2.2 (by decide) (by decide)⟩

/-! ## Monotonicity of the ratio -/

theorem binade_eq_of_bounds (q : ℚ) (k : ℤ) (hk : -1022 ≤ k) (hlo : 2 ^ k ≤ |q|)
    (hhi : |q| < 2 ^ (k + 1)) : binade q = k := by
  have hpos : 0 < |q| := lt_of_lt_of_le (two_zpow_pos k) hlo
  have h1 : k ≤ Int.log 2 |q| := by
    rw [← Int.zpow_le_iff_le_log (by norm_num) hpos, Nat.cast_ofNat]; exact hlo
  have h2 : Int.log 2 |q| < k + 1 := by
    rw [← Int.lt_zpow_iff_log_lt (by norm_num) hpos, Nat.cast_ofNat]; exact hhi
  unfold binade; omega

theorem floor_add_half (f : ℤ) : ⌊(f : ℚ) + 1 / 2⌋ = f := by
  rw [Int.floor_eq_iff]; constructor <;> linarith

theorem roundHalfEven_tie_even (f : ℤ) (hf : f % 2 = 0) :
    roundHalfEven ((f : ℚ) + 1 / 2) = f := by
  unfold roundHalfEven
  rw [floor_add_half]
  have h1 : ¬ ((f : ℚ) + 1 / 2 - f < 1 / 2) := by norm_num
  have h2 : ¬ ((1 : ℚ) / 2 < (f : ℚ) + 1 / 2 - f) := by norm_num
  rw [if_neg h1, if_neg h2, if_pos hf]

theorem roundHalfEven_tie_odd (f : ℤ) (hf : f % 2 = 1) :
    roundHalfEven ((f : ℚ) + 1 / 2) = f + 1 := by
  unfold roundHalfEven
  rw [floor_add_half]
  have h1 : ¬ ((f : ℚ) + 1 / 2 - f < 1 / 2) := by norm_num
  have h2 : ¬ ((1 : ℚ) / 2 < (f : ℚ) + 1 / 2 - f) := by norm_num
  have h3 : ¬ (f % 2 = 0) := by omega
  rw [if_neg h1, if_neg h2, if_neg h3]

/-- The sum `2^53 + 1` lies halfway between the neighbouring `float64` values
`2^53` and `2^53 + 2`; the tie goes to the even significand, `2^53`. -/
theorem roundQ_two_pow_53_add_one : roundQ (9007199254740993 : ℚ) = 9007199254740992 := by
  have hb : binade (9007199254740993 : ℚ) = 53 :=
    binade_eq_of_bounds _ 53 (by norm_num) (by norm_num [abs_of_pos]) (by norm_num [abs_of_pos])
  have hs : (9007199254740993 : ℚ) * 2 ^ ((52 : ℤ) - 53) = ((4503599627370496 : ℤ) : ℚ) + 1 / 2 := by
    norm_num
  unfold roundQ
  rw [hb, hs, roundHalfEven_tie_even _ (by norm_num)]
  norm_num

/-- The sum `2^53 + 3` lies halfway between `2^53 + 2` and `2^53 + 4`; the tie
goes to the even significand, `2^53 + 4`. -/
theorem roundQ_two_pow_53_add_three : roundQ (9007199254740995 : ℚ) = 9007199254740996 := by
  have hb : binade (9007199254740995 : ℚ) = 53 :=
    binade_eq_of_bounds _ 53 (by norm_num) (by norm_num [abs_of_pos]) (by norm_num [abs_of_pos])
  have hs : (9007199254740995 : ℚ) * 2 ^ ((52 : ℤ) - 53) = ((4503599627370497 : ℤ) : ℚ) + 1 / 2 := by
    norm_num
  unfold roundQ
  rw [hb, hs, roundHalfEven_tie_odd _ (by norm_num)]
  norm_num

theorem one_le_round_sum (Ce Ca : ℤ) (hCe : 0 ≤ Ce) (hCa : 0 ≤ Ca) (hpos : 0 < Ce + Ca) :
    1 ≤ roundQ (roundQ (Ce : ℚ) + roundQ (Ca : ℚ)) := by
  have ha0 : (0 : ℚ) ≤ Ce := by exact_mod_cast hCe
  have hb0 : (0 : ℚ) ≤ Ca := by exact_mod_cast hCa
  have hra0 := roundQ_nonneg ha0
  have hrb0 := roundQ_nonneg hb0
  apply one_le_roundQ
  rcases hCe.lt_or_eq with h | h
  · linarith [one_le_roundQ_intCast h]
  · have h' : 0 < Ca := by omega
    linarith [one_le_roundQ_intCast h']

/-- On non-negative `int`s the result is a finite number that is not
negative, the pair `(0, 0)` included. -/
theorem instability_fin_nonneg (Ce Ca : ℤ) (hCe : 0 ≤ Ce) (hCa : 0 ≤ Ca) (hCe63 : Ce < 2 ^ 63)
    (hCa63 : Ca < 2 ^ 63) : ∃ q : ℚ, instability Ce Ca = .fin q ∧ 0 ≤ q := by
  rcases (add_nonneg hCe hCa).lt_or_eq with hpos | hzero
  · exact ⟨_, instability_eq_of_pos Ce Ca hCe hCa hCe63 hCa63 hpos,
      (instability_of_pos Ce Ca hCe hCa hCe63 hCa63 hpos).2.1⟩
  · have h1 : Ce = 0 := by omega
    have h2 : Ca = 0 := by omega
    exact ⟨0, by rw [h1, h2, instability_zero_zero], le_rfl⟩

/-- When `Ce + Ca` is at most `2^53` the conversions and the sum are exact, and
the result is the exact quotient rounded once. -/
theorem instability_eq_of_small (Ce Ca : ℤ) (hCe : 0 ≤ Ce) (hCa : 0 ≤ Ca) (hpos : 0 < Ce + Ca)
    (hsmall : Ce + Ca ≤ 2 ^ 53) :
    instability Ce Ca = .fin (roundQ ((Ce : ℚ) / ((Ce : ℚ) + (Ca : ℚ)))) := by
  have ha : roundQ (Ce : ℚ) = Ce := roundQ_intCast Ce (by rw [abs_of_nonneg hCe]; omega)
  have hb : roundQ (Ca : ℚ) = Ca := roundQ_intCast Ca (by rw [abs_of_nonneg hCa]; omega)
  have hs : roundQ ((Ce : ℚ) + (Ca : ℚ)) = (Ce : ℚ) + (Ca : ℚ) := by
    have := roundQ_intCast (Ce + Ca) (by rw [abs_of_nonneg hpos.le]; exact hsmall)
    simpa using this
  rw [instability_eq_of_pos Ce Ca hCe hCa (by omega) (by omega) hpos, ha, hb, hs]

theorem F64_le_fin (a b : ℚ) : F64.le (.fin a) (.fin b) = true ↔ a ≤ b := by
  simp [F64.le]

/-- For a fixed `Ce` the result does not increase when `Ca` grows. -/
theorem instability_antitone_right (Ce Ca₁ Ca₂ : ℤ) (hCe : 0 ≤ Ce) (hCa : 0 ≤ Ca₁)
    (hle : Ca₁ ≤ Ca₂) (hCe63 : Ce < 2 ^ 63) (hCa63 : Ca₂ < 2 ^ 63) :
    F64.le (instability Ce Ca₂) (instability Ce Ca₁) = true := by
  rcases (add_nonneg hCe hCa).lt_or_eq with hpos | hzero
  · have hpos₂ : 0 < Ce + Ca₂ := by omega
    rw [instability_eq_of_pos Ce Ca₁ hCe hCa hCe63 (by omega) hpos,
      instability_eq_of_pos Ce Ca₂ hCe (by omega) hCe63 hCa63 hpos₂, F64_le_fin]
    have ha0 : (0 : ℚ) ≤ roundQ (Ce : ℚ) := roundQ_nonneg (by exact_mod_cast hCe)
    have hb0 : (0 : ℚ) ≤ roundQ (Ca₁ : ℚ) := roundQ_nonneg (by exact_mod_cast hCa)
    have hb : roundQ (Ca₁ : ℚ) ≤ roundQ (Ca₂ : ℚ) :=
      roundQ_mono (by exact_mod_cast hCa) (by exact_mod_cast hle)
    have hs : roundQ (roundQ (Ce : ℚ) + roundQ (Ca₁ : ℚ))
        ≤ roundQ (roundQ (Ce : ℚ) + roundQ (Ca₂ : ℚ)) :=
      roundQ_mono (add_nonneg ha0 hb0) (by linarith)
    have hs1 := one_le_round_sum Ce Ca₁ hCe hCa hpos
    have hs2 := one_le_round_sum Ce Ca₂ hCe (by omega) hpos₂
    apply roundQ_mono (div_nonneg ha0 (by linarith))
    exact div_le_div_of_nonneg_left ha0 (by linarith) hs
  · have h1 : Ce = 0 := by omega
    have h2 : Ca₁ = 0 := by omega
    rw [h1, h2, instability_zero_zero]
    rcases (hCa.trans hle).lt_or_eq with h | h
    · rw [instability_zero_left Ca₂ (by omega) hCa63, F64_le_fin]
    · rw [← h, instability_zero_zero, F64_le_fin]

/-- For a fixed `Ca` the result does not decrease when `Ce` grows, as long as
`Ce + Ca` stays at most `2^53`. -/
theorem instability_monotone_left_small (Ce₁ Ce₂ Ca : ℤ) (hCe : 0 ≤ Ce₁) (hCa : 0 ≤ Ca)
    (hle : Ce₁ ≤ Ce₂) (hsmall : Ce₂ + Ca ≤ 2 ^ 53) :
    F64.le (instability Ce₁ Ca) (instability Ce₂ Ca) = true := by
  rcases (add_nonneg hCe hCa).lt_or_eq with hpos | hzero
  · have hpos₂ : 0 < Ce₂ + Ca := by omega
    rw [instability_eq_of_small Ce₁ Ca hCe hCa hpos (by omega),
      instability_eq_of_small Ce₂ Ca (by omega) hCa hpos₂ hsmall, F64_le_fin]
    have ha1 : (0 : ℚ) ≤ Ce₁ := by exact_mod_cast hCe
    have hb : (0 : ℚ) ≤ Ca := by exact_mod_cast hCa
    have h12 : (Ce₁ : ℚ) ≤ Ce₂ := by exact_mod_cast hle
    have hp1 : (0 : ℚ) < (Ce₁ : ℚ) + Ca := by exact_mod_cast hpos
    have hp2 : (0 : ℚ) < (Ce₂ : ℚ) + Ca := by exact_mod_cast hpos₂
    apply roundQ_mono (div_nonneg ha1 hp1.le)
    rw [div_le_div_iff₀ hp1 hp2]
    nlinarith [mul_le_mul_of_nonneg_right h12 hb]
  · have h1 : Ce₁ = 0 := by omega
    have h2 : Ca = 0 := by omega
    obtain ⟨q, hq, hq0⟩ := instability_fin_nonneg Ce₂ Ca (by omega) hCa (by omega) (by omega)
    rw [h1, hq, h2, instability_zero_zero, F64_le_fin]
    exact hq0

theorem instability_two_pow_53_one : instability (2 ^ 53) 1 = .fin 1 := by
  rw [instability_eq_of_pos (2 ^ 53) 1 (by norm_num) (by norm_num) (by norm_num) (by norm_num)
    (by norm_num)]
  have ha : roundQ (((2 ^ 53 : ℤ)) : ℚ) = 9007199254740992 := by
    rw [roundQ_intCast _ (by norm_num)]; norm_num
  have hb : roundQ (((1 : ℤ)) : ℚ) = 1 := by
    rw [roundQ_intCast _ (by norm_num)]; norm_num
  rw [ha, hb]
  rw [show (9007199254740992 : ℚ) + 1 = 9007199254740993 by norm_num,
    roundQ_two_pow_53_add_one,
    show (9007199254740992 : ℚ) / 9007199254740992 = 1 by norm_num, roundQ_one]

theorem instability_two_pow_53_add_two_one :
    ∃ q : ℚ, instability (2 ^ 53 + 2) 1 = .fin q ∧ q < 1 := by
  refine ⟨_, instability_eq_of_pos (2 ^ 53 + 2) 1 (by norm_num) (by norm_num) (by norm_num)
    (by norm_num) (by norm_num), ?_⟩
  have ha : roundQ (((2 ^ 53 + 2 : ℤ)) : ℚ) = 9007199254740994 := by
    have := roundQ_exact 4503599627370497 1 (by norm_num) (by norm_num)
    norm_num at this ⊢
    exact this
  have hb : roundQ (((1 : ℤ)) : ℚ) = 1 := by
    rw [roundQ_intCast _ (by norm_num)]; norm_num
  rw [ha, hb]
  rw [show (9007199254740994 : ℚ) + 1 = 9007199254740995 by norm_num,
    roundQ_two_pow_53_add_three]
  have hrep : roundQ (9007199254740991 * 2 ^ (-53 : ℤ)) = 9007199254740991 * 2 ^ (-53 : ℤ) := by
    have := roundQ_exact 9007199254740991 (-53) (by norm_num) (by norm_num)
    norm_num at this ⊢
    exact this
  have hle : (9007199254740994 : ℚ) / 9007199254740996 ≤ 9007199254740991 * 2 ^ (-53 : ℤ) := by
    norm_num
  have := roundQ_mono (by norm_num) hle
  rw [hrep] at this
  calc roundQ (9007199254740994 / 9007199254740996) ≤ 9007199254740991 * 2 ^ (-53 : ℤ) := this
    _ < 1 := by norm_num

/-- C16, as stated, fails: `2^53 <= 2^53 + 2`, but `instability(2^53, 1)` is
exactly 1.0 while `instability(2^53 + 2, 1)` is below 1.0. In the first call
the sum `2^53 + 1` rounds down to `2^53`; in the second the sum `2^53 + 3`
rounds up to `2^53 + 4`. -/
theorem instability_not_monotone_in_Ce :
    (2 ^ 53 : ℤ) ≤ 2 ^ 53 + 2 ∧ instability (2 ^ 53) 1 = .fin 1
      ∧ F64.le (instability (2 ^ 53) 1) (instability (2 ^ 53 + 2) 1) = false := by
  obtain ⟨q, hq, hlt⟩ := instability_two_pow_53_add_two_one
  refine ⟨by norm_num, instability_two_pow_53_one, ?_⟩
  rw [instability_two_pow_53_one, hq]
  simp only [F64.le, decide_eq_false_iff_not, not_le]
  exact hlt

/-- C16, amended: over non-negative `int`s, for a fixed `Ce` the result of
`instability` does not increase when `Ca` grows, the pair `(0, 0)` included;
for a fixed `Ca` it does not decrease when `Ce` grows as long as `Ce + Ca` is
at most `2^53`, the pair `(0, 0)` included. -/
theorem instability_monotone (Ce₁ Ce₂ Ca₁ Ca₂ : ℤ) (hCe0 : 0 ≤ Ce₁) (hCa0 : 0 ≤ Ca₁)
    (hCe : Ce₁ ≤ Ce₂) (hCa : Ca₁ ≤ Ca₂) (hCe63 : Ce₂ < 2 ^ 63) (hCa63 : Ca₂ < 2 ^ 63) :
    F64.le (instability Ce₁ Ca₂) (instability Ce₁ Ca₁) = true
      ∧ (Ce₂ + Ca₁ ≤ 2 ^ 53 →
          F64.le (instability Ce₁ Ca₁) (instability Ce₂ Ca₁) = true) :=
  ⟨instability_antitone_right Ce₁ Ca₁ Ca₂ hCe0 hCa0 hCa (by omega) hCa63,
    fun hsmall => instability_monotone_left_small Ce₁ Ce₂ Ca₁ hCe0 hCa0 hCe hsmall⟩

theorem instability_monotone_witness :
    (0 : ℤ) ≤ 1 ∧ (0 : ℤ) ≤ 2 ∧ (1 : ℤ) ≤ 3 ∧ (2 : ℤ) ≤ 5 ∧ (3 : ℤ) < 2 ^ 63
      ∧ (5 : ℤ) < 2 ^ 63 ∧ (3 : ℤ) + 2 ≤ 2 ^ 53
      ∧ F64.le (instability 1 5) (instability 1 2) = true
      ∧ F64.le (instability 1 2) (instability 3 2) = true :=
  ⟨by decide, by decide, by decide, by decide, by decide, by decide, by decide,
    (instability_monotone 1 3 2 5 (by decide) (by decide) (by decide) (by decide) (by decide)
      (by decide)).1,
    (instability_monotone 1 3 2 5 (by decide) (by decide) (by decide) (by decide) (by decide)
      (by decide)).2 (by decide)⟩

end GoInstability
